import Mathlib

/-!
# ArmPkg/Library/BaseMemoryLibStm/MemLibGeneric.c

A shallow embedding of the architecture independent memory primitives of
`MemLibGeneric.c` and proofs of their contracts.

Modelling conventions.

* `N` is the width in bits of `UINTN` (and of a pointer): 32 on ARM, 64 on
  AArch64.  Every theorem holds for any `N`.
* Memory is byte addressed: a `Mem` maps an address to the byte stored there.
  A byte access reduces its address modulo `2 ^ N` and the byte read modulo
  `256`.
* A `UINT16`, `UINT32` or `UINT64` occupies `W / 8` consecutive bytes, least
  significant byte first (UEFI platforms are little endian).
* `--Length` on a `UINTN` is subtraction modulo `2 ^ N`.
* A pointer is its address, a natural number; `NULL` is address `0`.
-/

namespace MemLibGeneric

/-! ## Data model -/

/-- Byte addressed memory: the byte stored at each address. -/
abbrev Mem := Nat → Nat

/-- The `NULL` pointer. -/
def NULL : Nat := 0

/-- The value of `--Length` for a `UINTN` of `N` bits: subtraction of one
modulo `2 ^ N`, so that `0` wraps to `2 ^ N - 1`. -/
def decUINTN (N Length : Nat) : Nat := (Length + 2 ^ N - 1) % 2 ^ N

/-- The value of `Pointer + k` (in bytes) for a pointer of `N` bits. -/
def ptrAdd (N Pointer k : Nat) : Nat := (Pointer + k) % 2 ^ N

/-- Reads `*(UINT8*)Address`: the byte at `Address`, as an unsigned number
`0..255`. -/
def readUINT8 (N : Nat) (mem : Mem) (Address : Nat) : Nat :=
  mem (Address % 2 ^ N) % 256

/-- Reads `*(INT8*)Address`: the byte at `Address`, as a signed number
`-128..127` (two's complement). -/
def readINT8 (N : Nat) (mem : Mem) (Address : Nat) : Int :=
  if readUINT8 N mem Address < 128 then (readUINT8 N mem Address : Int)
  else (readUINT8 N mem Address : Int) - 256

/-- Writes the byte `Value` (reduced modulo `256`) at `Address`. -/
def writeUINT8 (N : Nat) (mem : Mem) (Address Value : Nat) : Mem :=
  fun a => if a = Address % 2 ^ N then Value % 256 else mem a

/-- Reads the unsigned integer stored in the `n` bytes from `Address` on,
least significant byte first. -/
def loadLE (N : Nat) (mem : Mem) : (n : Nat) → (Address : Nat) → Nat
  | 0, _ => 0
  | n + 1, Address => readUINT8 N mem Address + 256 * loadLE N mem n (Address + 1)

/-- Stores `Value` in the `n` bytes from `Address` on, least significant byte
first (the bits of `Value` above `8 * n` are dropped). -/
def storeLE (N : Nat) : (n : Nat) → (mem : Mem) → (Address Value : Nat) → Mem
  | 0, mem, _, _ => mem
  | n + 1, mem, Address, Value =>
      storeLE N n (writeUINT8 N mem Address Value) (Address + 1) (Value / 256)

/-- Reads `((UINTW*)Buffer)[Index]`, an element of `W` bits. -/
def readElem (N W : Nat) (mem : Mem) (Buffer Index : Nat) : Nat :=
  loadLE N mem (W / 8) (Buffer + Index * (W / 8))

/-- Performs `((UINTW*)Buffer)[Index] = Value` for elements of `W` bits. -/
def writeElem (N W : Nat) (mem : Mem) (Buffer Index Value : Nat) : Mem :=
  storeLE N (W / 8) mem (Buffer + Index * (W / 8)) Value

/-- The `Length` bytes of the buffer at `Buffer`, each as an unsigned number
`0..255`, the byte at the lowest address first. -/
def bufferBytes (N : Nat) (mem : Mem) (Buffer Length : Nat) : List Nat :=
  (List.range Length).map (fun i => readUINT8 N mem (Buffer + i))

/-- A memory for the concrete scenarios: it holds the bytes of `bytes` from the
address `Base` on, and zero everywhere else. -/
def memOfBytes (Base : Nat) (bytes : List Nat) : Mem :=
  fun a => if Base ≤ a then bytes.getD (a - Base) 0 else 0

/-! ## Fill primitives -/

/-- The loop of `InternalMemSetMem16`, `InternalMemSetMem32` and
`InternalMemSetMem64`, which differ in the element type only:
```
do {
  ((UINTW*)Buffer)[--Length] = Value;
} while (Length != 0);
```
The result is the memory and the value of `Length` when the loop is left. -/
def InternalMemSetMemW.loop (N W : Nat) (Buffer Value : Nat) (mem : Mem) (Length : Nat) :
    Mem × Nat :=
  let Length1 := decUINTN N Length
  let mem1 := writeElem N W mem Buffer Length1 Value
  if Length1 ≠ 0 then InternalMemSetMemW.loop N W Buffer Value mem1 Length1
  else (mem1, Length1)
termination_by decUINTN N Length
decreasing_by
  have hlt : decUINTN N Length < 2 ^ N := Nat.mod_lt _ (Nat.two_pow_pos N)
  have hne : decUINTN N Length ≠ 0 := by tauto
  generalize decUINTN N Length = L at hlt hne
  have hL : L + 2 ^ N - 1 = (L - 1) + 2 ^ N := by omega
  simp only [decUINTN, hL, Nat.add_mod_right]
  rw [Nat.mod_eq_of_lt (by omega)]
  omega

/-- The body shared by `InternalMemSetMem16/32/64`: runs the loop, then
`return Buffer;`.  The result is the memory after the call and the pointer
returned. -/
def InternalMemSetMemW (N W : Nat) (mem : Mem) (Buffer Length Value : Nat) : Mem × Nat :=
  ((InternalMemSetMemW.loop N W Buffer Value mem Length).1, Buffer)

/-- Fills a target buffer with a 16-bit value, and returns the target buffer. -/
def InternalMemSetMem16 (N : Nat) (mem : Mem) (Buffer Length Value : Nat) : Mem × Nat :=
  InternalMemSetMemW N 16 mem Buffer Length Value

/-- Fills a target buffer with a 32-bit value, and returns the target buffer. -/
def InternalMemSetMem32 (N : Nat) (mem : Mem) (Buffer Length Value : Nat) : Mem × Nat :=
  InternalMemSetMemW N 32 mem Buffer Length Value

/-- Fills a target buffer with a 64-bit value, and returns the target buffer. -/
def InternalMemSetMem64 (N : Nat) (mem : Mem) (Buffer Length Value : Nat) : Mem × Nat :=
  InternalMemSetMemW N 64 mem Buffer Length Value

/-! ## Compare primitive -/

/-- Compares two memory buffers of a given length:
```
while ((--Length != 0) &&
       (*(INT8*)DestinationBuffer == *(INT8*)SourceBuffer)) {
  DestinationBuffer = (INT8*)DestinationBuffer + 1;
  SourceBuffer = (INT8*)SourceBuffer + 1;
}
return (INTN)*(UINT8*)DestinationBuffer - (INTN)*(UINT8*)SourceBuffer;
```
-/
def InternalMemCompareMem (N : Nat) (mem : Mem) (DestinationBuffer SourceBuffer Length : Nat) :
    Int :=
  let Length1 := decUINTN N Length
  if Length1 ≠ 0 ∧ readINT8 N mem DestinationBuffer = readINT8 N mem SourceBuffer then
    InternalMemCompareMem N mem (ptrAdd N DestinationBuffer 1) (ptrAdd N SourceBuffer 1) Length1
  else
    (readUINT8 N mem DestinationBuffer : Int) - (readUINT8 N mem SourceBuffer : Int)
termination_by decUINTN N Length
decreasing_by
  have hlt : decUINTN N Length < 2 ^ N := Nat.mod_lt _ (Nat.two_pow_pos N)
  have hne : decUINTN N Length ≠ 0 := by tauto
  generalize decUINTN N Length = L at hlt hne
  have hL : L + 2 ^ N - 1 = (L - 1) + 2 ^ N := by omega
  simp only [decUINTN, hL, Nat.add_mod_right]
  rw [Nat.mod_eq_of_lt (by omega)]
  omega

/-! ## Scan primitives -/

/-- The loop of `InternalMemScanMem8/16/32/64`, which differ in the element
type only:
```
do {
  if (*Pointer == Value) {
    return Pointer;
  }
  Pointer++;
} while (--Length != 0);
return NULL;
```
-/
def InternalMemScanMemW.loop (N W : Nat) (mem : Mem) (Value : Nat) (Pointer Length : Nat) :
    Nat :=
  if loadLE N mem (W / 8) Pointer = Value then Pointer
  else
    let Pointer1 := ptrAdd N Pointer (W / 8)
    let Length1 := decUINTN N Length
    if Length1 ≠ 0 then InternalMemScanMemW.loop N W mem Value Pointer1 Length1
    else NULL
termination_by decUINTN N Length
decreasing_by
  have hlt : decUINTN N Length < 2 ^ N := Nat.mod_lt _ (Nat.two_pow_pos N)
  have hne : decUINTN N Length ≠ 0 := by tauto
  generalize decUINTN N Length = L at hlt hne
  have hL : L + 2 ^ N - 1 = (L - 1) + 2 ^ N := by omega
  simp only [decUINTN, hL, Nat.add_mod_right]
  rw [Nat.mod_eq_of_lt (by omega)]
  omega

/-- The body shared by `InternalMemScanMem8/16/32/64`:
`Pointer = (CONST UINTW*)Buffer;` and then the loop. -/
def InternalMemScanMemW (N W : Nat) (mem : Mem) (Buffer Length Value : Nat) : Nat :=
  InternalMemScanMemW.loop N W mem Value Buffer Length

/-- Scans a target buffer for an 8-bit value. -/
def InternalMemScanMem8 (N : Nat) (mem : Mem) (Buffer Length Value : Nat) : Nat :=
  InternalMemScanMemW N 8 mem Buffer Length Value

/-- Scans a target buffer for a 16-bit value. -/
def InternalMemScanMem16 (N : Nat) (mem : Mem) (Buffer Length Value : Nat) : Nat :=
  InternalMemScanMemW N 16 mem Buffer Length Value

/-- Scans a target buffer for a 32-bit value. -/
def InternalMemScanMem32 (N : Nat) (mem : Mem) (Buffer Length Value : Nat) : Nat :=
  InternalMemScanMemW N 32 mem Buffer Length Value

/-- Scans a target buffer for a 64-bit value. -/
def InternalMemScanMem64 (N : Nat) (mem : Mem) (Buffer Length Value : Nat) : Nat :=
  InternalMemScanMemW N 64 mem Buffer Length Value

/-! ## Zero-buffer predicate -/

/-- The loop of `InternalMemIsZeroBuffer`, from the value `Index` on:
```
for (Index = 0; Index < Length; Index++) {
  if (BufferData[Index] != 0) {
    return FALSE;
  }
}
return TRUE;
```
`Index++` cannot wrap: it is executed with `Index < Length`, and `Length` is a
`UINTN`. -/
def InternalMemIsZeroBuffer.loop (N : Nat) (mem : Mem) (BufferData Length : Nat)
    (Index : Nat) : Bool :=
  if Index < Length then
    if readUINT8 N mem (BufferData + Index) ≠ 0 then false
    else InternalMemIsZeroBuffer.loop N mem BufferData Length (Index + 1)
  else true
termination_by Length - Index

/-- Checks whether the contents of a buffer are all zeros. -/
def InternalMemIsZeroBuffer (N : Nat) (mem : Mem) (Buffer Length : Nat) : Bool :=
  InternalMemIsZeroBuffer.loop N mem Buffer Length 0

/-! ## Zero fill -/

/-- Modelled from the spec: the byte-width fill primitive `InternalMemSetMem`
that `InternalMemZeroMem` calls.  It is declared in `MemLibInternals.h` and its
body is not part of `MemLibGeneric.c`.  As the spec has it for every fill
primitive, it writes the scalar into every element position, here each of the
`Length` bytes from `Buffer` on, and returns the original address. -/
def InternalMemSetMem (N : Nat) (mem : Mem) (Buffer Length Value : Nat) : Mem × Nat :=
  (fun a => if ∃ i, i < Length ∧ a = (Buffer + i) % 2 ^ N then Value % 256 else mem a, Buffer)

/-- Set Buffer to 0 for Size bytes:
```
return InternalMemSetMem (Buffer, Length, 0);
```
The byte fill that is called is the parameter `SetMem`. -/
def InternalMemZeroMem (SetMem : Mem → Nat → Nat → Nat → Mem × Nat) (mem : Mem)
    (Buffer Length : Nat) : Mem × Nat :=
  SetMem mem Buffer Length 0

/-! ## Reference fill -/

/-- The ascending-order reference fill of the spec: it writes `Value` at the
element indices `0`, `1`, ... up to `Length - 1`, in this order. -/
def fillAscending (N W : Nat) (mem : Mem) (Buffer Length Value : Nat) : Mem :=
  (List.range Length).foldl (fun m Index => writeElem N W m Buffer Index Value) mem

/-! ## The loops with a bound on the number of turns

Each loop once more, now giving up with `none` when it would take more than
`fuel` turns. -/

/-- The loop of `InternalMemSetMem16/32/64`, run for at most `fuel` turns. -/
def InternalMemSetMemW.loopFuel (N W : Nat) (Buffer Value : Nat) :
    (fuel : Nat) → (mem : Mem) → (Length : Nat) → Option (Mem × Nat)
  | 0, _, _ => none
  | fuel + 1, mem, Length =>
      let Length1 := decUINTN N Length
      let mem1 := writeElem N W mem Buffer Length1 Value
      if Length1 ≠ 0 then InternalMemSetMemW.loopFuel N W Buffer Value fuel mem1 Length1
      else some (mem1, Length1)

/-- The loop of `InternalMemCompareMem`, run for at most `fuel` evaluations of
its condition. -/
def InternalMemCompareMem.loopFuel (N : Nat) (mem : Mem) :
    (fuel : Nat) → (DestinationBuffer SourceBuffer Length : Nat) → Option Int
  | 0, _, _, _ => none
  | fuel + 1, DestinationBuffer, SourceBuffer, Length =>
      let Length1 := decUINTN N Length
      if Length1 ≠ 0 ∧ readINT8 N mem DestinationBuffer = readINT8 N mem SourceBuffer then
        InternalMemCompareMem.loopFuel N mem fuel (ptrAdd N DestinationBuffer 1)
          (ptrAdd N SourceBuffer 1) Length1
      else
        some ((readUINT8 N mem DestinationBuffer : Int) - (readUINT8 N mem SourceBuffer : Int))

/-- The loop of `InternalMemScanMem8/16/32/64`, run for at most `fuel` turns. -/
def InternalMemScanMemW.loopFuel (N W : Nat) (mem : Mem) (Value : Nat) :
    (fuel : Nat) → (Pointer Length : Nat) → Option Nat
  | 0, _, _ => none
  | fuel + 1, Pointer, Length =>
      if loadLE N mem (W / 8) Pointer = Value then some Pointer
      else
        let Pointer1 := ptrAdd N Pointer (W / 8)
        let Length1 := decUINTN N Length
        if Length1 ≠ 0 then InternalMemScanMemW.loopFuel N W mem Value fuel Pointer1 Length1
        else some NULL

/-- The loop of `InternalMemIsZeroBuffer`, run for at most `fuel` evaluations
of its condition `Index < Length`. -/
def InternalMemIsZeroBuffer.loopFuel (N : Nat) (mem : Mem) (BufferData Length : Nat) :
    (fuel : Nat) → (Index : Nat) → Option Bool
  | 0, _ => none
  | fuel + 1, Index =>
      if Index < Length then
        if readUINT8 N mem (BufferData + Index) ≠ 0 then some false
        else InternalMemIsZeroBuffer.loopFuel N mem BufferData Length fuel (Index + 1)
      else some true

/-! ## The result of the compare primitive as an `INTN` -/

/-- The value an integer takes when it is stored in an `INTN`, a two's
complement number of `N` bits. -/
def wrapINTN (N : Nat) (x : Int) : Int :=
  (x + 2 ^ (N - 1)) % 2 ^ N - 2 ^ (N - 1)

/-- The number of times the loop of `InternalMemCompareMem` advances its two
pointers, that is the index of the bytes whose difference is returned. -/
def InternalMemCompareMem.stopIndex (N : Nat) (mem : Mem)
    (DestinationBuffer SourceBuffer Length : Nat) : Nat :=
  let Length1 := decUINTN N Length
  if Length1 ≠ 0 ∧ readINT8 N mem DestinationBuffer = readINT8 N mem SourceBuffer then
    InternalMemCompareMem.stopIndex N mem (ptrAdd N DestinationBuffer 1)
      (ptrAdd N SourceBuffer 1) Length1 + 1
  else 0
termination_by decUINTN N Length
decreasing_by
  have hlt : decUINTN N Length < 2 ^ N := Nat.mod_lt _ (Nat.two_pow_pos N)
  have hne : decUINTN N Length ≠ 0 := by tauto
  generalize decUINTN N Length = L at hlt hne
  have hL : L + 2 ^ N - 1 = (L - 1) + 2 ^ N := by omega
  simp only [decUINTN, hL, Nat.add_mod_right]
  rw [Nat.mod_eq_of_lt (by omega)]
  omega

/-- The index at which the loop of `InternalMemCompareMem` would stop if its
test compared the bytes as `UINT8`, the type used for the difference returned,
instead of `INT8`. -/
def InternalMemCompareMem.stopIndexUnsigned (N : Nat) (mem : Mem)
    (DestinationBuffer SourceBuffer Length : Nat) : Nat :=
  let Length1 := decUINTN N Length
  if Length1 ≠ 0 ∧ readUINT8 N mem DestinationBuffer = readUINT8 N mem SourceBuffer then
    InternalMemCompareMem.stopIndexUnsigned N mem (ptrAdd N DestinationBuffer 1)
      (ptrAdd N SourceBuffer 1) Length1 + 1
  else 0
termination_by decUINTN N Length
decreasing_by
  have hlt : decUINTN N Length < 2 ^ N := Nat.mod_lt _ (Nat.two_pow_pos N)
  have hne : decUINTN N Length ≠ 0 := by tauto
  generalize decUINTN N Length = L at hlt hne
  have hL : L + 2 ^ N - 1 = (L - 1) + 2 ^ N := by omega
  simp only [decUINTN, hL, Nat.add_mod_right]
  rw [Nat.mod_eq_of_lt (by omega)]
  omega

/-! ## Machine arithmetic -/

theorem decUINTN_succ (N L : Nat) (h : L < 2 ^ N) : decUINTN N (L + 1) = L := by
  have hL : L + 1 + 2 ^ N - 1 = L + 2 ^ N := by omega
  simp only [decUINTN, hL, Nat.add_mod_right]
  exact Nat.mod_eq_of_lt h

theorem readUINT8_lt (N : Nat) (mem : Mem) (a : Nat) : readUINT8 N mem a < 256 :=
  Nat.mod_lt _ (by decide)

theorem readUINT8_ptrAdd (N : Nat) (mem : Mem) (p k i : Nat) :
    readUINT8 N mem (ptrAdd N p k + i) = readUINT8 N mem (p + (i + k)) := by
  have h : (ptrAdd N p k + i) % 2 ^ N = (p + (i + k)) % 2 ^ N := by
    rw [ptrAdd, Nat.mod_add_mod]
    congr 1
    omega
  simp only [readUINT8, h]

theorem readINT8_eq_iff (N : Nat) (mem : Mem) (a b : Nat) :
    readINT8 N mem a = readINT8 N mem b ↔ readUINT8 N mem a = readUINT8 N mem b := by
  have ha := readUINT8_lt N mem a
  have hb := readUINT8_lt N mem b
  unfold readINT8
  constructor
  · intro h
    split_ifs at h <;> omega
  · intro h
    rw [h]

/-! ## Loads and stores -/

theorem writeUINT8_other (N : Nat) (mem : Mem) (A V a : Nat) (h : a ≠ A % 2 ^ N) :
    writeUINT8 N mem A V a = mem a := by
  simp [writeUINT8, h]

theorem writeUINT8_same (N : Nat) (mem : Mem) (A V : Nat) :
    writeUINT8 N mem A V (A % 2 ^ N) = V % 256 := by
  simp [writeUINT8]

/-- A store changes no byte outside the `n` bytes it writes. -/
theorem storeLE_outside (N : Nat) (a : Nat) :
    ∀ (n : Nat) (mem : Mem) (A V : Nat), A + n ≤ 2 ^ N → (a < A ∨ A + n ≤ a) →
      storeLE N n mem A V a = mem a := by
  intro n
  induction n with
  | zero => intro mem A V _ _; rfl
  | succ n ih =>
    intro mem A V hA ha
    rw [storeLE, ih _ _ _ (by omega) (by omega)]
    apply writeUINT8_other
    rw [Nat.mod_eq_of_lt (by omega)]
    omega

/-- A load depends on the `n` bytes it reads only. -/
theorem loadLE_congr (N : Nat) (mem1 mem2 : Mem) :
    ∀ (n A : Nat), A + n ≤ 2 ^ N → (∀ a, A ≤ a → a < A + n → mem1 a = mem2 a) →
      loadLE N mem1 n A = loadLE N mem2 n A := by
  intro n
  induction n with
  | zero => intro A _ _; rfl
  | succ n ih =>
    intro A hA h
    have hmod : A % 2 ^ N = A := Nat.mod_eq_of_lt (by omega)
    rw [loadLE, loadLE, ih (A + 1) (by omega) (fun a h1 h2 => h a (by omega) (by omega))]
    simp only [readUINT8, hmod, h A (le_refl A) (by omega)]

/-- A load reads back what a store of the same size at the same address
wrote. -/
theorem loadLE_storeLE (N : Nat) :
    ∀ (n : Nat) (mem : Mem) (A V : Nat), A + n ≤ 2 ^ N → V < 256 ^ n →
      loadLE N (storeLE N n mem A V) n A = V := by
  intro n
  induction n with
  | zero =>
    intro mem A V _ hV
    simp only [pow_zero, Nat.lt_one_iff] at hV
    simp [loadLE, hV]
  | succ n ih =>
    intro mem A V hA hV
    have hmod : A % 2 ^ N = A := Nat.mod_eq_of_lt (by omega)
    have hV1 : V / 256 < 256 ^ n := by
      rw [Nat.div_lt_iff_lt_mul (by decide)]
      rw [pow_succ] at hV
      exact hV
    rw [loadLE, storeLE, ih _ _ _ (by omega) hV1]
    have hb : readUINT8 N (storeLE N n (writeUINT8 N mem A V) (A + 1) (V / 256)) A = V % 256 := by
      rw [readUINT8, hmod, storeLE_outside N A n _ _ _ (by omega) (by omega)]
      have := writeUINT8_same N mem A V
      rw [hmod] at this
      rw [this, Nat.mod_mod]
    rw [hb]
    omega

/-! ## Fill primitives: the loop -/

/-- One turn of the fill loop entered with a count `L + 1` that does not
wrap. -/
theorem setMemLoop_succ (N W Buffer Value : Nat) (mem : Mem) (L : Nat) (h : L < 2 ^ N) :
    InternalMemSetMemW.loop N W Buffer Value mem (L + 1) =
      if L ≠ 0 then
        InternalMemSetMemW.loop N W Buffer Value (writeElem N W mem Buffer L Value) L
      else (writeElem N W mem Buffer L Value, L) := by
  rw [InternalMemSetMemW.loop]
  simp only [decUINTN_succ N L h]

theorem count_lt_of_range (N w Buffer L : Nat) (hw : 1 ≤ w)
    (hRange : Buffer + (L + 1) * w ≤ 2 ^ N) : L < 2 ^ N := by
  have h1 : (L + 1) * 1 ≤ (L + 1) * w := Nat.mul_le_mul_left _ hw
  omega

theorem elem_range (Buffer w i L : Nat) (h : i < L) :
    Buffer + i * w + w ≤ Buffer + L * w := by
  have h1 : (i + 1) * w ≤ L * w := Nat.mul_le_mul_right _ h
  rw [Nat.add_mul, Nat.one_mul] at h1
  omega

/-- The fill loop leaves every byte outside the `L` elements of the buffer as
it was. -/
theorem setMemLoop_frame (N W Buffer Value a : Nat) (hW : 1 ≤ W / 8) :
    ∀ (L : Nat) (mem : Mem), 1 ≤ L → Buffer + L * (W / 8) ≤ 2 ^ N →
      (a < Buffer ∨ Buffer + L * (W / 8) ≤ a) →
      (InternalMemSetMemW.loop N W Buffer Value mem L).1 a = mem a := by
  intro L
  induction L with
  | zero => intro mem h; omega
  | succ L ih =>
    intro mem _ hRange ha
    have hlt : L < L + 1 := Nat.lt_succ_self L
    have hE := elem_range Buffer (W / 8) L (L + 1) hlt
    have hLe : Buffer + L * (W / 8) ≤ Buffer + L * (W / 8) + W / 8 := Nat.le_add_right _ _
    have hst : writeElem N W mem Buffer L Value a = mem a :=
      storeLE_outside N a (W / 8) mem _ Value (by omega) (by omega)
    rw [setMemLoop_succ N W Buffer Value mem L (count_lt_of_range N _ Buffer L hW hRange)]
    by_cases hL : L = 0
    · simp only [hL, ne_eq, not_true_eq_false, if_false]
      rw [hL] at hst
      exact hst
    · simp only [ne_eq, hL, not_false_eq_true, if_true]
      rw [ih _ (by omega) (by omega) (by omega)]
      exact hst

/-- After the fill loop every one of the `L` elements of the buffer reads
back as `Value`. -/
theorem setMemLoop_read (N W Buffer Value : Nat) (hW : 1 ≤ W / 8)
    (hValue : Value < 256 ^ (W / 8)) :
    ∀ (L : Nat) (mem : Mem), 1 ≤ L → Buffer + L * (W / 8) ≤ 2 ^ N →
      ∀ i, i < L →
        readElem N W (InternalMemSetMemW.loop N W Buffer Value mem L).1 Buffer i = Value := by
  intro L
  induction L with
  | zero => intro mem h; omega
  | succ L ih =>
    intro mem _ hRange i hi
    have hlt : L < L + 1 := Nat.lt_succ_self L
    have hE := elem_range Buffer (W / 8) L (L + 1) hlt
    have hLe : Buffer + L * (W / 8) ≤ Buffer + L * (W / 8) + W / 8 := Nat.le_add_right _ _
    have hst : readElem N W (writeElem N W mem Buffer L Value) Buffer L = Value :=
      loadLE_storeLE N (W / 8) mem _ Value (by omega) hValue
    rw [setMemLoop_succ N W Buffer Value mem L (count_lt_of_range N _ Buffer L hW hRange)]
    by_cases hL : L = 0
    · simp only [hL, ne_eq, not_true_eq_false, if_false]
      have hi0 : i = 0 := by omega
      rw [hL] at hst
      rw [hi0]
      exact hst
    · simp only [ne_eq, hL, not_false_eq_true, if_true]
      by_cases hiL : i < L
      · exact ih _ (by omega) (by omega) i hiL
      · have hiE : i = L := by omega
        rw [hiE]
        refine Eq.trans ?_ hst
        apply loadLE_congr N _ _ (W / 8) _ (by omega)
        intro a h1 _
        exact setMemLoop_frame N W Buffer Value a hW L _ (by omega) (by omega) (Or.inr h1)

theorem elemBytes_pos (W : Nat) (hW : W = 16 ∨ W = 32 ∨ W = 64) : 1 ≤ W / 8 := by
  rcases hW with h | h | h <;> subst h <;> decide

theorem elemBytes_pow (W : Nat) (hW : W = 16 ∨ W = 32 ∨ W = 64) : 256 ^ (W / 8) = 2 ^ W := by
  rcases hW with h | h | h <;> subst h <;> norm_num

/-! ## Fill primitives: contracts -/

/-- C1: for a width `W` of 16, 32 or 64 bits, any memory, any buffer of
`Length >= 1` elements lying inside the address space and any `W`-bit `Value`,
after `InternalMemSetMemW (Buffer, Length, Value)` every element of index
`i < Length` of the buffer reads back equal to `Value`. -/
theorem InternalMemSetMemW_fills (N W : Nat) (mem : Mem) (Buffer Length Value : Nat)
    (hW : W = 16 ∨ W = 32 ∨ W = 64) (hLength : 1 ≤ Length)
    (hRange : Buffer + Length * (W / 8) ≤ 2 ^ N) (hValue : Value < 2 ^ W) :
    ∀ i, i < Length →
      readElem N W (InternalMemSetMemW N W mem Buffer Length Value).1 Buffer i = Value := by
  rw [← elemBytes_pow W hW] at hValue
  exact setMemLoop_read N W Buffer Value (elemBytes_pos W hW) hValue Length mem hLength hRange

/-- C1, witness: `InternalMemSetMem64` on a buffer of 3 elements at address
`0x1000` with the value `0xAABBCCDDEEFF0011` leaves all three 64-bit elements
holding that value. -/
theorem InternalMemSetMemW_fills_witness :
    (64 = 16 ∨ 64 = 32 ∨ 64 = 64) ∧ 1 ≤ 3 ∧ 0x1000 + 3 * (64 / 8) ≤ 2 ^ 64 ∧
      0xAABBCCDDEEFF0011 < 2 ^ 64 ∧
      ∀ i, i < 3 →
        readElem 64 64 (InternalMemSetMem64 64 (fun _ => 0) 0x1000 3 0xAABBCCDDEEFF0011).1
          0x1000 i = 0xAABBCCDDEEFF0011 :=
  ⟨by decide, by decide, by decide, by decide,
    InternalMemSetMemW_fills 64 64 (fun _ => 0) 0x1000 3 0xAABBCCDDEEFF0011
      (by decide) (by decide) (by decide) (by decide)⟩

/-- C9: for a width `W` of 16, 32 or 64 bits, any memory and any buffer of
`Length >= 1` elements lying inside the address space,
`InternalMemSetMemW (Buffer, Length, Value)` leaves every byte at an address
outside `[Buffer, Buffer + Length * (W / 8))` as it was before the call. -/
theorem InternalMemSetMemW_frame (N W : Nat) (mem : Mem) (Buffer Length Value : Nat)
    (hW : W = 16 ∨ W = 32 ∨ W = 64) (hLength : 1 ≤ Length)
    (hRange : Buffer + Length * (W / 8) ≤ 2 ^ N) (a : Nat)
    (ha : a < Buffer ∨ Buffer + Length * (W / 8) ≤ a) :
    (InternalMemSetMemW N W mem Buffer Length Value).1 a = mem a :=
  setMemLoop_frame N W Buffer Value a (elemBytes_pos W hW) Length mem hLength hRange ha

/-- C9, witness: `InternalMemSetMem16` on a buffer of 2 elements at address
`0x1000` leaves the byte at `0x1004`, the first one after the buffer, as it
was. -/
theorem InternalMemSetMemW_frame_witness :
    (16 = 16 ∨ 16 = 32 ∨ 16 = 64) ∧ 1 ≤ 2 ∧ 0x1000 + 2 * (16 / 8) ≤ 2 ^ 32 ∧
      (0x1004 < 0x1000 ∨ 0x1000 + 2 * (16 / 8) ≤ 0x1004) ∧
      (InternalMemSetMem16 32 (fun _ => 0x5A) 0x1000 2 0xBEEF).1 0x1004 =
        (fun _ => 0x5A) 0x1004 :=
  ⟨by decide, by decide, by decide, by decide,
    InternalMemSetMemW_frame 32 16 (fun _ => 0x5A) 0x1000 2 0xBEEF
      (by decide) (by decide) (by decide) 0x1004 (by decide)⟩

/-- C10: `InternalMemSetMem16`, `InternalMemSetMem32` and
`InternalMemSetMem64` return exactly the address `Buffer` they were given,
for every memory, `Length` and `Value`. -/
theorem InternalMemSetMemW_returns_Buffer (N : Nat) (mem : Mem) (Buffer Length Value : Nat) :
    (InternalMemSetMem16 N mem Buffer Length Value).2 = Buffer ∧
      (InternalMemSetMem32 N mem Buffer Length Value).2 = Buffer ∧
      (InternalMemSetMem64 N mem Buffer Length Value).2 = Buffer :=
  ⟨rfl, rfl, rfl⟩

/-! ## Compare primitive: the loop -/

/-- One turn of the compare loop entered with a count `L + 1` that does not
wrap. -/
theorem compareMem_succ (N : Nat) (mem : Mem) (D S L : Nat) (h : L < 2 ^ N) :
    InternalMemCompareMem N mem D S (L + 1) =
      if L ≠ 0 ∧ readUINT8 N mem D = readUINT8 N mem S then
        InternalMemCompareMem N mem (ptrAdd N D 1) (ptrAdd N S 1) L
      else (readUINT8 N mem D : Int) - (readUINT8 N mem S : Int) := by
  rw [InternalMemCompareMem]
  simp only [decUINTN_succ N L h, readINT8_eq_iff]

/-- With `k` the first index at which the buffers differ, the compare loop
returns the difference of the two unsigned bytes at index `k`. -/
theorem compareMem_first_mismatch (N : Nat) (mem : Mem) :
    ∀ (L D S k : Nat), L < 2 ^ N → k < L →
      (∀ i, i < k → readUINT8 N mem (D + i) = readUINT8 N mem (S + i)) →
      readUINT8 N mem (D + k) ≠ readUINT8 N mem (S + k) →
      InternalMemCompareMem N mem D S L =
        (readUINT8 N mem (D + k) : Int) - (readUINT8 N mem (S + k) : Int) := by
  intro L
  induction L with
  | zero => intro D S k _ h; omega
  | succ L ih =>
    intro D S k hL hk hEq hNe
    rw [compareMem_succ N mem D S L (by omega)]
    cases k with
    | zero =>
      simp only [Nat.add_zero] at hNe ⊢
      simp only [hNe, and_false, if_false]
    | succ k =>
      have h0 : readUINT8 N mem D = readUINT8 N mem S := by
        have := hEq 0 (Nat.succ_pos k)
        simpa using this
      have hL0 : L ≠ 0 := by omega
      simp only [ne_eq, hL0, not_false_eq_true, h0, and_self, if_true]
      rw [ih (ptrAdd N D 1) (ptrAdd N S 1) k (by omega) (by omega)]
      · rw [readUINT8_ptrAdd, readUINT8_ptrAdd]
      · intro i hi
        rw [readUINT8_ptrAdd, readUINT8_ptrAdd]
        exact hEq (i + 1) (by omega)
      · rw [readUINT8_ptrAdd, readUINT8_ptrAdd]
        exact hNe

/-- On buffers whose first `L >= 1` bytes are pairwise equal the compare loop
returns zero. -/
theorem compareMem_all_equal (N : Nat) (mem : Mem) :
    ∀ (L D S : Nat), 1 ≤ L → L < 2 ^ N →
      (∀ i, i < L → readUINT8 N mem (D + i) = readUINT8 N mem (S + i)) →
      InternalMemCompareMem N mem D S L = 0 := by
  intro L
  induction L with
  | zero => intro D S h; omega
  | succ L ih =>
    intro D S _ hL hEq
    have h0 : readUINT8 N mem D = readUINT8 N mem S := by
      have := hEq 0 (Nat.succ_pos L)
      simpa using this
    rw [compareMem_succ N mem D S L (by omega)]
    by_cases hL0 : L = 0
    · simp [hL0, h0]
    · simp only [ne_eq, hL0, not_false_eq_true, h0, and_self, if_true]
      apply ih _ _ (by omega) (by omega)
      intro i hi
      rw [readUINT8_ptrAdd, readUINT8_ptrAdd]
      exact hEq (i + 1) (by omega)

/-- Buffers that differ somewhere in their first `L` bytes have a first index
at which they differ. -/
theorem exists_first_mismatch (N : Nat) (mem : Mem) (D S L : Nat)
    (h : ¬ ∀ i, i < L → readUINT8 N mem (D + i) = readUINT8 N mem (S + i)) :
    ∃ k, k < L ∧ (∀ i, i < k → readUINT8 N mem (D + i) = readUINT8 N mem (S + i)) ∧
      readUINT8 N mem (D + k) ≠ readUINT8 N mem (S + k) := by
  classical
  have hex : ∃ k, k < L ∧ readUINT8 N mem (D + k) ≠ readUINT8 N mem (S + k) := by
    by_contra hcon
    apply h
    intro i hi
    by_contra hne
    exact hcon ⟨i, hi, hne⟩
  refine ⟨Nat.find hex, (Nat.find_spec hex).1, ?_, (Nat.find_spec hex).2⟩
  intro i hi
  by_contra hne
  exact Nat.find_min hex hi ⟨lt_trans hi (Nat.find_spec hex).1, hne⟩

theorem byte_sub_ne_zero (a b : Nat) (h : a ≠ b) : (a : Int) - (b : Int) ≠ 0 := by
  omega

/-! ## Byte strings and their lexicographic order -/

theorem bufferBytes_succ (N : Nat) (mem : Mem) (D L : Nat) :
    bufferBytes N mem D (L + 1) = readUINT8 N mem D :: bufferBytes N mem (D + 1) L := by
  simp only [bufferBytes, List.range_succ_eq_map, List.map_cons, List.map_map, Nat.add_zero]
  congr 1
  apply List.map_congr_left
  intro i _
  simp only [Function.comp_apply, Nat.succ_eq_add_one]
  congr 1
  omega

theorem bufferBytes_eq_iff (N : Nat) (mem : Mem) (D S L : Nat) :
    bufferBytes N mem D L = bufferBytes N mem S L ↔
      ∀ i, i < L → readUINT8 N mem (D + i) = readUINT8 N mem (S + i) := by
  simp only [bufferBytes, List.map_inj_left, List.mem_range]

theorem bufferBytes_lex_iff (N : Nat) (mem : Mem) :
    ∀ (L D S : Nat), List.Lex (· < ·) (bufferBytes N mem D L) (bufferBytes N mem S L) ↔
      ∃ k, k < L ∧ (∀ i, i < k → readUINT8 N mem (D + i) = readUINT8 N mem (S + i)) ∧
        readUINT8 N mem (D + k) < readUINT8 N mem (S + k) := by
  intro L
  induction L with
  | zero =>
    intro D S
    constructor
    · intro h
      simp only [bufferBytes, List.range_zero, List.map_nil] at h
      cases h
    · rintro ⟨k, hk, _⟩
      omega
  | succ L ih =>
    intro D S
    rw [bufferBytes_succ, bufferBytes_succ]
    constructor
    · intro h
      generalize hab : readUINT8 N mem D = a at h
      generalize hbb : readUINT8 N mem S = b at h
      cases h with
      | cons h' =>
        obtain ⟨k, hk, hEq, hLt⟩ := (ih _ _).mp h'
        refine ⟨k + 1, by omega, ?_, ?_⟩
        · intro i hi
          cases i with
          | zero => simpa using hab.trans hbb.symm
          | succ i =>
            have := hEq i (by omega)
            rw [show D + (i + 1) = D + 1 + i by omega, show S + (i + 1) = S + 1 + i by omega]
            exact this
        · rw [show D + (k + 1) = D + 1 + k by omega, show S + (k + 1) = S + 1 + k by omega]
          exact hLt
      | rel h' =>
        refine ⟨0, by omega, ?_, ?_⟩
        · intro i hi; omega
        · simpa [hab, hbb] using h'
    · rintro ⟨k, hk, hEq, hLt⟩
      cases k with
      | zero =>
        apply List.Lex.rel
        simpa using hLt
      | succ k =>
        have h0 : readUINT8 N mem D = readUINT8 N mem S := by
          simpa using hEq 0 (Nat.succ_pos k)
        rw [h0]
        apply List.Lex.cons
        apply (ih _ _).mpr
        refine ⟨k, by omega, ?_, ?_⟩
        · intro i hi
          have := hEq (i + 1) (by omega)
          rw [show D + (i + 1) = D + 1 + i by omega, show S + (i + 1) = S + 1 + i by omega] at this
          exact this
        · rw [show D + (k + 1) = D + 1 + k by omega, show S + (k + 1) = S + 1 + k by omega] at hLt
          exact hLt

/-! ## Compare primitive: contracts -/

/-- C2: for any two buffers and any `Length >= 1` (a `UINTN`),
`InternalMemCompareMem (A, B, Length)` is zero if and only if the bytes of
index `i < Length` of `A` and `B` are pairwise equal; every byte, the last
one included, takes part. -/
theorem InternalMemCompareMem_eq_zero_iff (N : Nat) (mem : Mem) (A B Length : Nat)
    (hLength : 1 ≤ Length) (hUINTN : Length < 2 ^ N) :
    InternalMemCompareMem N mem A B Length = 0 ↔
      ∀ i, i < Length → readUINT8 N mem (A + i) = readUINT8 N mem (B + i) := by
  constructor
  · intro h0
    by_contra hcon
    obtain ⟨k, hk, hEq, hNe⟩ := exists_first_mismatch N mem A B Length hcon
    rw [compareMem_first_mismatch N mem Length A B k hUINTN hk hEq hNe] at h0
    exact byte_sub_ne_zero _ _ hNe h0
  · exact compareMem_all_equal N mem Length A B hLength hUINTN

/-- C3: for any two buffers and any `Length >= 1` (a `UINTN`), with `k` the
least index below `Length` at which the buffers differ,
`InternalMemCompareMem (A, B, Length)` is the byte of `A` at `k` minus the
byte of `B` at `k`, both taken as unsigned `0..255`, and is not zero. -/
theorem InternalMemCompareMem_first_mismatch (N : Nat) (mem : Mem) (A B Length k : Nat)
    (hUINTN : Length < 2 ^ N) (hk : k < Length)
    (hEq : ∀ i, i < k → readUINT8 N mem (A + i) = readUINT8 N mem (B + i))
    (hNe : readUINT8 N mem (A + k) ≠ readUINT8 N mem (B + k)) :
    InternalMemCompareMem N mem A B Length =
        (readUINT8 N mem (A + k) : Int) - (readUINT8 N mem (B + k) : Int) ∧
      InternalMemCompareMem N mem A B Length ≠ 0 := by
  have h := compareMem_first_mismatch N mem Length A B k hUINTN hk hEq hNe
  refine ⟨h, ?_⟩
  rw [h]
  exact byte_sub_ne_zero _ _ hNe

/-- C7: for any two buffers and any `Length >= 1` (a `UINTN`),
`InternalMemCompareMem (A, B, Length)` is the negation of
`InternalMemCompareMem (B, A, Length)`. -/
theorem InternalMemCompareMem_antisymm (N : Nat) (mem : Mem) (A B Length : Nat)
    (hLength : 1 ≤ Length) (hUINTN : Length < 2 ^ N) :
    InternalMemCompareMem N mem A B Length = -InternalMemCompareMem N mem B A Length := by
  by_cases hall : ∀ i, i < Length → readUINT8 N mem (A + i) = readUINT8 N mem (B + i)
  · rw [compareMem_all_equal N mem Length A B hLength hUINTN hall,
      compareMem_all_equal N mem Length B A hLength hUINTN (fun i hi => (hall i hi).symm)]
    rfl
  · obtain ⟨k, hk, hEq, hNe⟩ := exists_first_mismatch N mem A B Length hall
    rw [compareMem_first_mismatch N mem Length A B k hUINTN hk hEq hNe,
      compareMem_first_mismatch N mem Length B A k hUINTN hk (fun i hi => (hEq i hi).symm)
        (fun h => hNe h.symm)]
    omega

/-- C8: for any two buffers and any `Length >= 1` (a `UINTN`), the sign of
`InternalMemCompareMem (A, B, Length)` is the lexicographic order of the two
strings of `Length` unsigned bytes: negative iff `A` is before `B`, positive
iff `B` is before `A`, zero iff the strings are equal. -/
theorem InternalMemCompareMem_lex (N : Nat) (mem : Mem) (A B Length : Nat)
    (hLength : 1 ≤ Length) (hUINTN : Length < 2 ^ N) :
    (InternalMemCompareMem N mem A B Length < 0 ↔
        List.Lex (· < ·) (bufferBytes N mem A Length) (bufferBytes N mem B Length)) ∧
      (0 < InternalMemCompareMem N mem A B Length ↔
        List.Lex (· < ·) (bufferBytes N mem B Length) (bufferBytes N mem A Length)) ∧
      (InternalMemCompareMem N mem A B Length = 0 ↔
        bufferBytes N mem A Length = bufferBytes N mem B Length) := by
  rw [bufferBytes_lex_iff, bufferBytes_lex_iff, bufferBytes_eq_iff]
  by_cases hall : ∀ i, i < Length → readUINT8 N mem (A + i) = readUINT8 N mem (B + i)
  · rw [compareMem_all_equal N mem Length A B hLength hUINTN hall]
    refine ⟨?_, ?_, ?_⟩
    · constructor
      · intro h; omega
      · rintro ⟨k, hk, _, hLt⟩
        have := hall k hk
        omega
    · constructor
      · intro h; omega
      · rintro ⟨k, hk, _, hLt⟩
        have := hall k hk
        omega
    · exact ⟨fun _ => hall, fun _ => rfl⟩
  · obtain ⟨k, hk, hEq, hNe⟩ := exists_first_mismatch N mem A B Length hall
    rw [compareMem_first_mismatch N mem Length A B k hUINTN hk hEq hNe]
    refine ⟨?_, ?_, ?_⟩
    · constructor
      · intro h
        exact ⟨k, hk, hEq, by omega⟩
      · rintro ⟨j, hj, hEqj, hLt⟩
        have hjk : j = k := by
          rcases Nat.lt_trichotomy j k with h | h | h
          · have := hEq j h
            omega
          · exact h
          · exact absurd (hEqj k h) hNe
        rw [hjk] at hLt
        omega
    · constructor
      · intro h
        exact ⟨k, hk, fun i hi => (hEq i hi).symm, by omega⟩
      · rintro ⟨j, hj, hEqj, hLt⟩
        have hjk : j = k := by
          rcases Nat.lt_trichotomy j k with h | h | h
          · have := hEq j h
            omega
          · exact h
          · exact absurd (hEqj k h).symm hNe
        rw [hjk] at hLt
        omega
    · constructor
      · intro h
        exact absurd h (byte_sub_ne_zero _ _ hNe)
      · intro h
        exact absurd h hall

/-! ## Compare primitive: concrete scenarios -/

/-- C2, witness: the buffers `{1, 2, 3}` and `{1, 2, 4}` differ in their last
byte only, and `InternalMemCompareMem` on them with `Length = 3` is not
zero. -/
theorem InternalMemCompareMem_eq_zero_iff_witness :
    1 ≤ 3 ∧ 3 < 2 ^ 32 ∧
      InternalMemCompareMem 32 (memOfBytes 0x1000 [1, 2, 3, 1, 2, 4]) 0x1000 0x1003 3 ≠ 0 :=
  ⟨by decide, by decide, fun h =>
    absurd
      ((InternalMemCompareMem_eq_zero_iff 32 (memOfBytes 0x1000 [1, 2, 3, 1, 2, 4])
        0x1000 0x1003 3 (by decide) (by decide)).mp h)
      (by decide)⟩

/-- C3, witness: `InternalMemCompareMem` on `{1, 2, 3}` and `{1, 2, 4}` with
`Length = 3` is `-1`, and on `{1, 2, 4}` and `{1, 2, 3}` it is `1`. -/
theorem InternalMemCompareMem_first_mismatch_witness :
    InternalMemCompareMem 32 (memOfBytes 0x1000 [1, 2, 3, 1, 2, 4]) 0x1000 0x1003 3 = -1 ∧
      InternalMemCompareMem 32 (memOfBytes 0x1000 [1, 2, 3, 1, 2, 4]) 0x1003 0x1000 3 = 1 :=
  ⟨(InternalMemCompareMem_first_mismatch 32 (memOfBytes 0x1000 [1, 2, 3, 1, 2, 4])
      0x1000 0x1003 3 2 (by decide) (by decide) (by decide) (by decide)).1.trans (by decide),
    (InternalMemCompareMem_first_mismatch 32 (memOfBytes 0x1000 [1, 2, 3, 1, 2, 4])
      0x1003 0x1000 3 2 (by decide) (by decide) (by decide) (by decide)).1.trans (by decide)⟩

/-- C7, witness: on `{1, 2, 3}` and `{1, 2, 4}` with `Length = 3`, swapping the
two buffers negates the result of `InternalMemCompareMem`. -/
theorem InternalMemCompareMem_antisymm_witness :
    1 ≤ 3 ∧ 3 < 2 ^ 32 ∧
      InternalMemCompareMem 32 (memOfBytes 0x1000 [1, 2, 3, 1, 2, 4]) 0x1000 0x1003 3 =
        -InternalMemCompareMem 32 (memOfBytes 0x1000 [1, 2, 3, 1, 2, 4]) 0x1003 0x1000 3 :=
  ⟨by decide, by decide,
    InternalMemCompareMem_antisymm 32 (memOfBytes 0x1000 [1, 2, 3, 1, 2, 4]) 0x1000 0x1003 3
      (by decide) (by decide)⟩

/-- C8, witness: `{1, 2, 3}` is before `{1, 2, 4}` in the lexicographic order,
and `InternalMemCompareMem` on them with `Length = 3` is negative. -/
theorem InternalMemCompareMem_lex_witness :
    bufferBytes 32 (memOfBytes 0x1000 [1, 2, 3, 1, 2, 4]) 0x1000 3 = [1, 2, 3] ∧
      bufferBytes 32 (memOfBytes 0x1000 [1, 2, 3, 1, 2, 4]) 0x1003 3 = [1, 2, 4] ∧
      InternalMemCompareMem 32 (memOfBytes 0x1000 [1, 2, 3, 1, 2, 4]) 0x1000 0x1003 3 < 0 :=
  ⟨by decide, by decide,
    (InternalMemCompareMem_lex 32 (memOfBytes 0x1000 [1, 2, 3, 1, 2, 4]) 0x1000 0x1003 3
      (by decide) (by decide)).1.mpr (by decide)⟩

/-! ## Scan primitives: the loop -/

/-- One turn of the scan loop entered with a count `L + 1` that does not
wrap. -/
theorem scanMemLoop_succ (N W : Nat) (mem : Mem) (Value P L : Nat) (h : L < 2 ^ N) :
    InternalMemScanMemW.loop N W mem Value P (L + 1) =
      if loadLE N mem (W / 8) P = Value then P
      else if L ≠ 0 then InternalMemScanMemW.loop N W mem Value (ptrAdd N P (W / 8)) L
      else NULL := by
  rw [InternalMemScanMemW.loop]
  simp only [decUINTN_succ N L h]

theorem ptrAdd_eq (N P k : Nat) (h : P + k < 2 ^ N) : ptrAdd N P k = P + k :=
  Nat.mod_eq_of_lt h

theorem next_elem_lt (N w P L : Nat) (hw : 1 ≤ w) (hL : L ≠ 0)
    (hRange : P + (L + 1) * w ≤ 2 ^ N) : P + w < 2 ^ N ∧ P + w + L * w ≤ 2 ^ N := by
  have h1 : 1 * w ≤ L * w := Nat.mul_le_mul_right _ (Nat.one_le_iff_ne_zero.mpr hL)
  rw [Nat.add_mul, Nat.one_mul] at hRange
  rw [Nat.one_mul] at h1
  omega

theorem next_elem_index (P w i : Nat) : P + w + i * w = P + (i + 1) * w := by
  rw [Nat.add_mul, Nat.one_mul]
  omega

/-- With `k` the first index whose element equals `Value`, the scan loop
returns the address of element `k`. -/
theorem scanMemLoop_found (N W : Nat) (mem : Mem) (Value : Nat) (hW : 1 ≤ W / 8) :
    ∀ (L P k : Nat), P + L * (W / 8) ≤ 2 ^ N → k < L →
      (∀ i, i < k → readElem N W mem P i ≠ Value) → readElem N W mem P k = Value →
      InternalMemScanMemW.loop N W mem Value P L = P + k * (W / 8) := by
  intro L
  induction L with
  | zero => intro P k _ h; omega
  | succ L ih =>
    intro P k hRange hk hNe hEq
    rw [scanMemLoop_succ N W mem Value P L (count_lt_of_range N _ P L hW hRange)]
    cases k with
    | zero =>
      simp only [readElem, Nat.zero_mul, Nat.add_zero] at hEq
      simp only [hEq, if_true, Nat.zero_mul, Nat.add_zero]
    | succ k =>
      have h0 : loadLE N mem (W / 8) P ≠ Value := by
        have := hNe 0 (Nat.succ_pos k)
        simpa only [readElem, Nat.zero_mul, Nat.add_zero] using this
      have hL0 : L ≠ 0 := by omega
      obtain ⟨hlt, hRange1⟩ := next_elem_lt N (W / 8) P L hW hL0 hRange
      simp only [h0, if_false, ne_eq, hL0, not_false_eq_true, if_true]
      rw [ptrAdd_eq N P (W / 8) hlt, ih (P + W / 8) k hRange1 (by omega), next_elem_index]
      · intro i hi
        have := hNe (i + 1) (by omega)
        simpa only [readElem, next_elem_index] using this
      · simpa only [readElem, next_elem_index] using hEq

/-- On a buffer none of whose `L >= 1` elements equals `Value` the scan loop
returns `NULL`. -/
theorem scanMemLoop_not_found (N W : Nat) (mem : Mem) (Value : Nat) (hW : 1 ≤ W / 8) :
    ∀ (L P : Nat), 1 ≤ L → P + L * (W / 8) ≤ 2 ^ N →
      (∀ i, i < L → readElem N W mem P i ≠ Value) →
      InternalMemScanMemW.loop N W mem Value P L = NULL := by
  intro L
  induction L with
  | zero => intro P h; omega
  | succ L ih =>
    intro P _ hRange hNe
    have h0 : loadLE N mem (W / 8) P ≠ Value := by
      have := hNe 0 (Nat.succ_pos L)
      simpa only [readElem, Nat.zero_mul, Nat.add_zero] using this
    rw [scanMemLoop_succ N W mem Value P L (count_lt_of_range N _ P L hW hRange)]
    by_cases hL0 : L = 0
    · simp only [h0, if_false, hL0, ne_eq, not_true_eq_false]
    · obtain ⟨hlt, hRange1⟩ := next_elem_lt N (W / 8) P L hW hL0 hRange
      simp only [h0, if_false, ne_eq, hL0, not_false_eq_true, if_true]
      rw [ptrAdd_eq N P (W / 8) hlt]
      apply ih (P + W / 8) (by omega) hRange1
      intro i hi
      have := hNe (i + 1) (by omega)
      simpa only [readElem, next_elem_index] using this

/-- A buffer one of whose first `L` elements equals `Value` has a first such
element. -/
theorem exists_first_match (N W : Nat) (mem : Mem) (Buffer Value L : Nat)
    (h : ∃ i, i < L ∧ readElem N W mem Buffer i = Value) :
    ∃ k, k < L ∧ (∀ i, i < k → readElem N W mem Buffer i ≠ Value) ∧
      readElem N W mem Buffer k = Value := by
  classical
  refine ⟨Nat.find h, (Nat.find_spec h).1, ?_, (Nat.find_spec h).2⟩
  intro i hi heq
  exact Nat.find_min h hi ⟨lt_trans hi (Nat.find_spec h).1, heq⟩

theorem scanBytes_pos (W : Nat) (hW : W = 8 ∨ W = 16 ∨ W = 32 ∨ W = 64) : 1 ≤ W / 8 := by
  rcases hW with h | h | h | h <;> subst h <;> decide

/-! ## Scan primitives: contracts -/

/-- C4: for a width `W` of 8, 16, 32 or 64 bits and a buffer of `Length`
elements lying inside the address space, if `k < Length` is the least index
whose element equals `Value`, then `InternalMemScanMemW (Buffer, Length, Value)`
returns the address `Buffer + k * (W / 8)` of that first match. -/
theorem InternalMemScanMemW_first_match (N W : Nat) (mem : Mem) (Buffer Length Value k : Nat)
    (hW : W = 8 ∨ W = 16 ∨ W = 32 ∨ W = 64) (hRange : Buffer + Length * (W / 8) ≤ 2 ^ N)
    (hk : k < Length) (hFirst : ∀ i, i < k → readElem N W mem Buffer i ≠ Value)
    (hMatch : readElem N W mem Buffer k = Value) :
    InternalMemScanMemW N W mem Buffer Length Value = Buffer + k * (W / 8) :=
  scanMemLoop_found N W mem Value (scanBytes_pos W hW) Length Buffer k hRange hk hFirst hMatch

/-- C4, witness: `InternalMemScanMem8` for the value `7` in the 4 bytes
`{5, 7, 7, 9}` at `0x1000` returns `0x1001`, the address of index 1, not that
of index 2. -/
theorem InternalMemScanMemW_first_match_witness :
    InternalMemScanMem8 32 (memOfBytes 0x1000 [5, 7, 7, 9]) 0x1000 4 7 = 0x1001 ∧
      0x1001 ≠ 0x1000 + 2 * (8 / 8) :=
  ⟨(InternalMemScanMemW_first_match 32 8 (memOfBytes 0x1000 [5, 7, 7, 9]) 0x1000 4 7 1
      (by decide) (by decide) (by decide) (by decide) (by decide)).trans (by decide),
    by decide⟩

/-- C5: for a width `W` of 8, 16, 32 or 64 bits and a non-null buffer of
`Length >= 1` elements lying inside the address space,
`InternalMemScanMemW (Buffer, Length, Value)` returns `NULL` if and only if no
element of index `i < Length` equals `Value`; the function is total, it
signals no error. -/
theorem InternalMemScanMemW_eq_NULL_iff (N W : Nat) (mem : Mem) (Buffer Length Value : Nat)
    (hW : W = 8 ∨ W = 16 ∨ W = 32 ∨ W = 64) (hNonNull : Buffer ≠ NULL) (hLength : 1 ≤ Length)
    (hRange : Buffer + Length * (W / 8) ≤ 2 ^ N) :
    InternalMemScanMemW N W mem Buffer Length Value = NULL ↔
      ∀ i, i < Length → readElem N W mem Buffer i ≠ Value := by
  constructor
  · intro hNull i hi hEq
    obtain ⟨k, hk, hFirst, hMatch⟩ := exists_first_match N W mem Buffer Value Length ⟨i, hi, hEq⟩
    have h := scanMemLoop_found N W mem Value (scanBytes_pos W hW) Length Buffer k hRange hk
      hFirst hMatch
    rw [InternalMemScanMemW, h] at hNull
    simp only [NULL] at hNull hNonNull
    omega
  · exact scanMemLoop_not_found N W mem Value (scanBytes_pos W hW) Length Buffer hLength hRange

/-- C5, witness: `InternalMemScanMem8` for the value `6` in the 4 bytes
`{5, 7, 7, 9}` at `0x1000` returns `NULL`, and for the value `9` it does
not. -/
theorem InternalMemScanMemW_eq_NULL_iff_witness :
    InternalMemScanMem8 32 (memOfBytes 0x1000 [5, 7, 7, 9]) 0x1000 4 6 = NULL ∧
      InternalMemScanMem8 32 (memOfBytes 0x1000 [5, 7, 7, 9]) 0x1000 4 9 ≠ NULL :=
  ⟨(InternalMemScanMemW_eq_NULL_iff 32 8 (memOfBytes 0x1000 [5, 7, 7, 9]) 0x1000 4 6
      (by decide) (by decide) (by decide) (by decide)).mpr (by decide),
    fun h => absurd
      ((InternalMemScanMemW_eq_NULL_iff 32 8 (memOfBytes 0x1000 [5, 7, 7, 9]) 0x1000 4 9
        (by decide) (by decide) (by decide) (by decide)).mp h)
      (by decide)⟩

/-! ## Zero-buffer predicate: contract -/

/-- The loop of `InternalMemIsZeroBuffer` entered at `Index` returns `TRUE` if
and only if every byte from `Index` up to `Length` is zero. -/
theorem isZeroBufferLoop_iff (N : Nat) (mem : Mem) (Buffer Length : Nat) :
    ∀ (d Index : Nat), Length - Index = d →
      (InternalMemIsZeroBuffer.loop N mem Buffer Length Index = true ↔
        ∀ i, Index ≤ i → i < Length → readUINT8 N mem (Buffer + i) = 0) := by
  intro d
  induction d with
  | zero =>
    intro Index hd
    rw [InternalMemIsZeroBuffer.loop]
    have hge : ¬ Index < Length := by omega
    simp only [hge, if_false, true_iff]
    intro i h1 h2
    omega
  | succ d ih =>
    intro Index hd
    rw [InternalMemIsZeroBuffer.loop]
    have hlt : Index < Length := by omega
    simp only [hlt, if_true]
    by_cases hb : readUINT8 N mem (Buffer + Index) = 0
    · simp only [ne_eq, hb, not_true_eq_false, if_false]
      rw [ih (Index + 1) (by omega)]
      constructor
      · intro h i h1 h2
        by_cases hi : i = Index
        · rw [hi]; exact hb
        · exact h i (by omega) h2
      · intro h i h1 h2
        exact h i (by omega) h2
    · simp only [ne_eq, hb, not_false_eq_true, if_true, Bool.false_eq_true, false_iff]
      intro h
      exact hb (h Index (le_refl _) hlt)

/-- C6: for every buffer and every `Length >= 0`, `InternalMemIsZeroBuffer
(Buffer, Length)` returns `TRUE` if and only if every byte of index
`i < Length` is zero; for `Length = 0` it returns `TRUE` at any address. -/
theorem InternalMemIsZeroBuffer_iff (N : Nat) (mem : Mem) (Buffer Length : Nat) :
    (InternalMemIsZeroBuffer N mem Buffer Length = true ↔
        ∀ i, i < Length → readUINT8 N mem (Buffer + i) = 0) ∧
      InternalMemIsZeroBuffer N mem Buffer 0 = true := by
  have h : ∀ L, InternalMemIsZeroBuffer N mem Buffer L = true ↔
      ∀ i, i < L → readUINT8 N mem (Buffer + i) = 0 := by
    intro L
    rw [InternalMemIsZeroBuffer, isZeroBufferLoop_iff N mem Buffer L L 0 rfl]
    exact ⟨fun h i hi => h i (Nat.zero_le i) hi, fun h i _ hi => h i hi⟩
  refine ⟨h Length, (h 0).mpr ?_⟩
  intro i hi
  omega

/-- C6, scenario: `InternalMemIsZeroBuffer` returns `FALSE` on the 4 bytes
`{0, 0, 0, 1}` and `TRUE` on the empty buffer. -/
theorem InternalMemIsZeroBuffer_iff_witness :
    InternalMemIsZeroBuffer 32 (memOfBytes 0x1000 [0, 0, 0, 1]) 0x1000 4 = false ∧
      InternalMemIsZeroBuffer 32 (memOfBytes 0x1000 []) 0x1000 0 = true :=
  ⟨Bool.eq_false_iff.mpr fun h =>
      absurd ((InternalMemIsZeroBuffer_iff 32 (memOfBytes 0x1000 [0, 0, 0, 1]) 0x1000 4).1.mp h)
        (by decide),
    (InternalMemIsZeroBuffer_iff 32 (memOfBytes 0x1000 []) 0x1000 0).2⟩

/-! ## Scan primitives: the elements read -/

/-- A load at two addresses that are equal modulo `2 ^ N` reads the same
bytes. -/
theorem loadLE_mod_congr (N : Nat) (mem : Mem) :
    ∀ (n A B : Nat), A % 2 ^ N = B % 2 ^ N → loadLE N mem n A = loadLE N mem n B := by
  intro n
  induction n with
  | zero => intro A B _; rfl
  | succ n ih =>
    intro A B h
    have h1 : (A + 1) % 2 ^ N = (B + 1) % 2 ^ N := by
      rw [Nat.add_mod A 1, Nat.add_mod B 1, h]
    rw [loadLE, loadLE, ih (A + 1) (B + 1) h1]
    simp only [readUINT8, h]

theorem loadLE_ptrAdd (N : Nat) (mem : Mem) (n P w i : Nat) :
    loadLE N mem n (ptrAdd N P w + i * w) = loadLE N mem n (P + (i + 1) * w) := by
  apply loadLE_mod_congr
  rw [ptrAdd, Nat.mod_add_mod, Nat.add_mul, Nat.one_mul]
  congr 1
  omega

/-- The scan loop gives the same result on two memories whose first `L`
elements from `P` on are equal. -/
theorem scanMemLoop_congr (N W : Nat) (mem1 mem2 : Mem) (Value : Nat) :
    ∀ (L P : Nat), 1 ≤ L → L < 2 ^ N →
      (∀ i, i < L → readElem N W mem1 P i = readElem N W mem2 P i) →
      InternalMemScanMemW.loop N W mem1 Value P L =
        InternalMemScanMemW.loop N W mem2 Value P L := by
  intro L
  induction L with
  | zero => intro P h; omega
  | succ L ih =>
    intro P _ hL hAgree
    have h0 : loadLE N mem1 (W / 8) P = loadLE N mem2 (W / 8) P := by
      have := hAgree 0 (Nat.succ_pos L)
      simpa only [readElem, Nat.zero_mul, Nat.add_zero] using this
    rw [scanMemLoop_succ N W mem1 Value P L (by omega),
      scanMemLoop_succ N W mem2 Value P L (by omega), h0]
    by_cases hV : loadLE N mem2 (W / 8) P = Value
    · simp only [hV, if_true]
    · by_cases hL0 : L = 0
      · simp only [hV, if_false, hL0, ne_eq, not_true_eq_false]
      · simp only [hV, if_false, ne_eq, hL0, not_false_eq_true, if_true]
        apply ih _ (by omega) (by omega)
        intro i hi
        have := hAgree (i + 1) (by omega)
        simpa only [readElem, loadLE_ptrAdd] using this

/-- C11: for every width `W` and every `Length >= 1` (a `UINTN`),
`InternalMemScanMemW` reads no element of index `Length` or more: on two
memories whose elements of index `i < Length` of the buffer are equal it
returns the same result, whatever the two memories hold elsewhere. -/
theorem InternalMemScanMemW_reads_in_bounds (N W : Nat) (mem1 mem2 : Mem)
    (Buffer Length Value : Nat) (hLength : 1 ≤ Length) (hUINTN : Length < 2 ^ N)
    (hAgree : ∀ i, i < Length → readElem N W mem1 Buffer i = readElem N W mem2 Buffer i) :
    InternalMemScanMemW N W mem1 Buffer Length Value =
      InternalMemScanMemW N W mem2 Buffer Length Value :=
  scanMemLoop_congr N W mem1 mem2 Value Length Buffer hLength hUINTN hAgree

/-- C11, witness: `InternalMemScanMem8` for the value `6` over the 4 bytes at
`0x1000` gives the same result on `{5, 7, 7, 9}` followed by `6` as on
`{5, 7, 7, 9}` followed by `0`: the byte of index 4 is not read. -/
theorem InternalMemScanMemW_reads_in_bounds_witness :
    readElem 32 8 (memOfBytes 0x1000 [5, 7, 7, 9, 6]) 0x1000 4 = 6 ∧
      readElem 32 8 (memOfBytes 0x1000 [5, 7, 7, 9]) 0x1000 4 = 0 ∧
      InternalMemScanMem8 32 (memOfBytes 0x1000 [5, 7, 7, 9, 6]) 0x1000 4 6 =
        InternalMemScanMem8 32 (memOfBytes 0x1000 [5, 7, 7, 9]) 0x1000 4 6 :=
  ⟨by decide, by decide,
    InternalMemScanMemW_reads_in_bounds 32 8 (memOfBytes 0x1000 [5, 7, 7, 9, 6])
      (memOfBytes 0x1000 [5, 7, 7, 9]) 0x1000 4 6 (by decide) (by decide) (by decide)⟩

/-! ## Zero fill: contract -/

/-- The byte fill modelled from the spec sets each of the `Length` bytes of
the buffer to `Value` and returns `Buffer`. -/
theorem InternalMemSetMem_sets (N : Nat) (mem : Mem) (Buffer Length Value : Nat)
    (hValue : Value < 256) :
    (∀ i, i < Length → readUINT8 N (InternalMemSetMem N mem Buffer Length Value).1 (Buffer + i) =
        Value) ∧
      (InternalMemSetMem N mem Buffer Length Value).2 = Buffer := by
  refine ⟨?_, rfl⟩
  intro i hi
  have hex : ∃ j, j < Length ∧ (Buffer + i) % 2 ^ N = (Buffer + j) % 2 ^ N := ⟨i, hi, rfl⟩
  simp only [readUINT8, InternalMemSetMem, hex, if_true, Nat.mod_mod]
  exact Nat.mod_eq_of_lt hValue

/-- C12: for every buffer address and every byte count `Length`, and whatever
byte fill `SetMem` is called, `InternalMemZeroMem (Buffer, Length)` gives exactly
the memory and the return value of `SetMem (Buffer, Length, 0)`; hence, if
`Length >= 1` and `SetMem` sets each of the `Length >= 1` bytes of its buffer to
its value argument and returns its buffer, then after `InternalMemZeroMem` every
byte of index `i < Length` is `0` and the address returned is `Buffer`. -/
theorem InternalMemZeroMem_delegates (N : Nat)
    (SetMem : Mem → Nat → Nat → Nat → Mem × Nat) (mem : Mem) (Buffer Length : Nat) :
    InternalMemZeroMem SetMem mem Buffer Length = SetMem mem Buffer Length 0 ∧
      (1 ≤ Length →
        (∀ (m : Mem) (B L V : Nat), 1 ≤ L → V < 256 →
          (∀ i, i < L → readUINT8 N (SetMem m B L V).1 (B + i) = V) ∧ (SetMem m B L V).2 = B) →
        (∀ i, i < Length →
          readUINT8 N (InternalMemZeroMem SetMem mem Buffer Length).1 (Buffer + i) = 0) ∧
        (InternalMemZeroMem SetMem mem Buffer Length).2 = Buffer) :=
  ⟨rfl, fun hLength hSetMem => hSetMem mem Buffer Length 0 hLength (by decide)⟩

/-- C12, witness: with the byte fill modelled from the spec,
`InternalMemZeroMem` is `InternalMemSetMem` with the value `0`, also for a
byte count of `0`; on the 3 bytes at `0x1001` of a memory holding `0x5A`
everywhere it zeroes the three bytes and returns `0x1001`. -/
theorem InternalMemZeroMem_delegates_witness :
    InternalMemZeroMem (InternalMemSetMem 32) (fun _ => 0x5A) 0x1001 0 =
        InternalMemSetMem 32 (fun _ => 0x5A) 0x1001 0 0 ∧
      1 ≤ 3 ∧
      (∀ i, i < 3 →
        readUINT8 32 (InternalMemZeroMem (InternalMemSetMem 32) (fun _ => 0x5A) 0x1001 3).1
          (0x1001 + i) = 0) ∧
      (InternalMemZeroMem (InternalMemSetMem 32) (fun _ => 0x5A) 0x1001 3).2 = 0x1001 :=
  ⟨(InternalMemZeroMem_delegates 32 (InternalMemSetMem 32) (fun _ => 0x5A) 0x1001 0).1,
    by decide,
    (InternalMemZeroMem_delegates 32 (InternalMemSetMem 32) (fun _ => 0x5A) 0x1001 3).2
      (by decide) (fun m B L V _ hV => InternalMemSetMem_sets 32 m B L V hV)⟩

/-! ## Stores, byte by byte -/

theorem mod_add_ne (M A d : Nat) (hd : 0 < d) (hdM : d < M) : A % M ≠ (A + d) % M := by
  have hr : A % M < M := Nat.mod_lt _ (by omega)
  rw [Nat.add_mod, Nat.mod_eq_of_lt hdM]
  generalize A % M = r at hr
  by_cases h : r + d < M
  · rw [Nat.mod_eq_of_lt h]
    omega
  · have h1 : (r + d) % M = (r + d - M) % M := Nat.mod_eq_sub_mod (by omega)
    have h2 : (r + d - M) % M = r + d - M := Nat.mod_eq_of_lt (by omega)
    rw [h1, h2]
    omega

/-- A store changes no byte at an address other than the `n` addresses it
writes, taken modulo `2 ^ N`. -/
theorem storeLE_outside_mod (N : Nat) (a : Nat) :
    ∀ (n : Nat) (mem : Mem) (A V : Nat), (∀ j, j < n → a ≠ (A + j) % 2 ^ N) →
      storeLE N n mem A V a = mem a := by
  intro n
  induction n with
  | zero => intro mem A V _; rfl
  | succ n ih =>
    intro mem A V h
    rw [storeLE, ih]
    · exact writeUINT8_other N mem A V a (h 0 (Nat.succ_pos n))
    · intro j hj
      have := h (j + 1) (by omega)
      rwa [show A + (j + 1) = A + 1 + j by omega] at this

/-- A store of at most `2 ^ N` bytes leaves byte `j` of `Value` at the address
of index `j`. -/
theorem storeLE_hit (N : Nat) :
    ∀ (n : Nat) (mem : Mem) (A V j : Nat), n ≤ 2 ^ N → j < n →
      storeLE N n mem A V ((A + j) % 2 ^ N) = V / 256 ^ j % 256 := by
  intro n
  induction n with
  | zero => intro mem A V j _ h; omega
  | succ n ih =>
    intro mem A V j hn hj
    rw [storeLE]
    cases j with
    | zero =>
      show storeLE N n (writeUINT8 N mem A V) (A + 1) (V / 256) (A % 2 ^ N) = V / 256 ^ 0 % 256
      rw [storeLE_outside_mod, writeUINT8_same, pow_zero, Nat.div_one]
      intro j hj
      rw [Nat.add_assoc]
      exact mod_add_ne _ A (1 + j) (by omega) (by omega)
    | succ j =>
      have := ih (writeUINT8 N mem A V) (A + 1) (V / 256) j (by omega) (by omega)
      rw [show A + (j + 1) = A + 1 + j by omega, this, Nat.div_div_eq_div_mul, pow_succ']

/-! ## Fill primitives: the bytes written -/

theorem elem_byte_range (Buffer w i j L : Nat) (hi : i < L) (hj : j < w) :
    Buffer + i * w + j < Buffer + L * w := by
  have := elem_range Buffer w i L hi
  omega

theorem writeElem_hit (N W : Nat) (mem : Mem) (Buffer i Value j : Nat)
    (hRange : Buffer + i * (W / 8) + W / 8 ≤ 2 ^ N) (hj : j < W / 8) :
    writeElem N W mem Buffer i Value (Buffer + i * (W / 8) + j) = Value / 256 ^ j % 256 := by
  have h := storeLE_hit N (W / 8) mem (Buffer + i * (W / 8)) Value j (by omega) hj
  rwa [Nat.mod_eq_of_lt (by omega)] at h

/-- After the fill loop, byte `j` of element `i < L` of the buffer is byte `j`
of `Value`. -/
theorem setMemLoop_byte (N W Buffer Value : Nat) (hW : 1 ≤ W / 8) :
    ∀ (L : Nat) (mem : Mem), 1 ≤ L → Buffer + L * (W / 8) ≤ 2 ^ N →
      ∀ i j, i < L → j < W / 8 →
        (InternalMemSetMemW.loop N W Buffer Value mem L).1 (Buffer + i * (W / 8) + j) =
          Value / 256 ^ j % 256 := by
  intro L
  induction L with
  | zero => intro mem h; omega
  | succ L ih =>
    intro mem _ hRange i j hi hj
    have hE := elem_range Buffer (W / 8) L (L + 1) (Nat.lt_succ_self L)
    rw [setMemLoop_succ N W Buffer Value mem L (count_lt_of_range N _ Buffer L hW hRange)]
    by_cases hL : L = 0
    · simp only [hL, ne_eq, not_true_eq_false, if_false]
      have hi0 : i = 0 := by omega
      subst hi0
      subst hL
      exact writeElem_hit N W mem Buffer 0 Value j (le_trans hE hRange) hj
    · simp only [ne_eq, hL, not_false_eq_true, if_true]
      by_cases hiL : i < L
      · exact ih _ (by omega) (by omega) i j hiL hj
      · have hiE : i = L := by omega
        rw [hiE, setMemLoop_frame N W Buffer Value _ hW L _ (by omega) (by omega)
          (Or.inr (by omega))]
        exact writeElem_hit N W mem Buffer L Value j (le_trans hE hRange) hj

theorem fillAscending_succ (N W : Nat) (mem : Mem) (Buffer L Value : Nat) :
    fillAscending N W mem Buffer (L + 1) Value =
      writeElem N W (fillAscending N W mem Buffer L Value) Buffer L Value := by
  simp only [fillAscending, List.range_succ, List.foldl_append, List.foldl_cons, List.foldl_nil]

/-- The ascending fill leaves every byte outside the `L` elements of the
buffer as it was. -/
theorem fillAscending_frame (N W Buffer Value a : Nat) (mem : Mem) :
    ∀ (L : Nat), Buffer + L * (W / 8) ≤ 2 ^ N → (a < Buffer ∨ Buffer + L * (W / 8) ≤ a) →
      fillAscending N W mem Buffer L Value a = mem a := by
  intro L
  induction L with
  | zero => intro _ _; rfl
  | succ L ih =>
    intro hRange ha
    have hE := elem_range Buffer (W / 8) L (L + 1) (Nat.lt_succ_self L)
    have hLe : Buffer + L * (W / 8) ≤ Buffer + L * (W / 8) + W / 8 := Nat.le_add_right _ _
    rw [fillAscending_succ, writeElem,
      storeLE_outside N a (W / 8) _ _ Value (by omega) (by omega)]
    exact ih (by omega) (by omega)

/-- After the ascending fill, byte `j` of element `i < L` of the buffer is byte
`j` of `Value`. -/
theorem fillAscending_byte (N W Buffer Value : Nat) (mem : Mem) :
    ∀ (L : Nat), Buffer + L * (W / 8) ≤ 2 ^ N → ∀ i j, i < L → j < W / 8 →
      fillAscending N W mem Buffer L Value (Buffer + i * (W / 8) + j) =
        Value / 256 ^ j % 256 := by
  intro L
  induction L with
  | zero => intro _ i j h; omega
  | succ L ih =>
    intro hRange i j hi hj
    have hE := elem_range Buffer (W / 8) L (L + 1) (Nat.lt_succ_self L)
    rw [fillAscending_succ]
    by_cases hiL : i < L
    · have hlt := elem_byte_range Buffer (W / 8) i j L hiL hj
      rw [writeElem, storeLE_outside N _ (W / 8) _ _ Value (by omega) (Or.inl hlt)]
      exact ih (by omega) i j hiL hj
    · have hiE : i = L := by omega
      rw [hiE]
      exact writeElem_hit N W _ Buffer L Value j (le_trans hE hRange) hj

/-- Every address inside a buffer of `L` elements is that of a byte `j` of an
element `i < L`. -/
theorem exists_elem_byte (Buffer w L a : Nat) (hw : 1 ≤ w) (h1 : Buffer ≤ a)
    (h2 : a < Buffer + L * w) : ∃ i j, i < L ∧ j < w ∧ a = Buffer + i * w + j := by
  refine ⟨(a - Buffer) / w, (a - Buffer) % w, ?_, Nat.mod_lt _ (by omega), ?_⟩
  · rw [Nat.div_lt_iff_lt_mul (by omega)]
    omega
  · have := Nat.div_add_mod (a - Buffer) w
    rw [Nat.mul_comm] at this
    omega

/-- C13: for a width `W` of 16, 32 or 64 bits, any memory and any buffer of
`Length >= 1` elements lying inside the address space, the fill of
`InternalMemSetMemW`, which writes the indices `Length - 1` down to `0`, gives
exactly the memory of the ascending reference fill, which writes the indices
`0` up to `Length - 1`. -/
theorem InternalMemSetMemW_eq_fillAscending (N W : Nat) (mem : Mem)
    (Buffer Length Value : Nat) (hW : W = 16 ∨ W = 32 ∨ W = 64) (hLength : 1 ≤ Length)
    (hRange : Buffer + Length * (W / 8) ≤ 2 ^ N) :
    (InternalMemSetMemW N W mem Buffer Length Value).1 =
      fillAscending N W mem Buffer Length Value := by
  have hw := elemBytes_pos W hW
  funext a
  by_cases ha : Buffer ≤ a ∧ a < Buffer + Length * (W / 8)
  · obtain ⟨i, j, hi, hj, rfl⟩ := exists_elem_byte Buffer (W / 8) Length a hw ha.1 ha.2
    rw [fillAscending_byte N W Buffer Value mem Length hRange i j hi hj]
    exact setMemLoop_byte N W Buffer Value hw Length mem hLength hRange i j hi hj
  · have ha1 : a < Buffer ∨ Buffer + Length * (W / 8) ≤ a := by omega
    rw [fillAscending_frame N W Buffer Value a mem Length hRange ha1]
    exact setMemLoop_frame N W Buffer Value a hw Length mem hLength hRange ha1

/-- C13, witness: on a buffer of 3 elements of 32 bits at `0x1000`, in a memory
holding `0x5A` everywhere, `InternalMemSetMem32` and the ascending reference
fill give the same memory. -/
theorem InternalMemSetMemW_eq_fillAscending_witness :
    (32 = 16 ∨ 32 = 32 ∨ 32 = 64) ∧ 1 ≤ 3 ∧ 0x1000 + 3 * (32 / 8) ≤ 2 ^ 32 ∧
      (InternalMemSetMem32 32 (fun _ => 0x5A) 0x1000 3 0xAABBCCDD).1 =
        fillAscending 32 32 (fun _ => 0x5A) 0x1000 3 0xAABBCCDD :=
  ⟨by decide, by decide, by decide,
    InternalMemSetMemW_eq_fillAscending 32 32 (fun _ => 0x5A) 0x1000 3 0xAABBCCDD
      (by decide) (by decide) (by decide)⟩

/-! ## Termination: the number of turns of each loop -/

/-- Entered with a count `1 <= L < 2 ^ N`, the fill loop is left within `L`
turns, with the result of `InternalMemSetMemW.loop`. -/
theorem setMemLoopFuel_eq (N W Buffer Value : Nat) :
    ∀ (fuel L : Nat) (mem : Mem), 1 ≤ L → L < 2 ^ N → L ≤ fuel →
      InternalMemSetMemW.loopFuel N W Buffer Value fuel mem L =
        some (InternalMemSetMemW.loop N W Buffer Value mem L) := by
  intro fuel
  induction fuel with
  | zero => intro L mem h1 _ h2; omega
  | succ fuel ih =>
    intro L mem h1 hL hFuel
    obtain ⟨L, rfl⟩ : ∃ K, L = K + 1 := ⟨L - 1, by omega⟩
    rw [setMemLoop_succ N W Buffer Value mem L (by omega), InternalMemSetMemW.loopFuel]
    simp only [decUINTN_succ N L (by omega)]
    by_cases hL0 : L = 0
    · simp only [hL0, ne_eq, not_true_eq_false, if_false]
    · simp only [ne_eq, hL0, not_false_eq_true, if_true]
      exact ih L _ (by omega) (by omega) (by omega)

/-- Entered with a count `1 <= L < 2 ^ N`, the fill loop is left with the
count at `0`. -/
theorem setMemLoop_count (N W Buffer Value : Nat) :
    ∀ (L : Nat) (mem : Mem), 1 ≤ L → L < 2 ^ N →
      (InternalMemSetMemW.loop N W Buffer Value mem L).2 = 0 := by
  intro L
  induction L with
  | zero => intro mem h; omega
  | succ L ih =>
    intro mem _ hL
    rw [setMemLoop_succ N W Buffer Value mem L (by omega)]
    by_cases hL0 : L = 0
    · simp only [hL0, ne_eq, not_true_eq_false, if_false]
    · simp only [ne_eq, hL0, not_false_eq_true, if_true]
      exact ih _ (by omega) (by omega)

/-- Entered with a count `1 <= L < 2 ^ N`, the compare loop is left within `L`
evaluations of its condition, with the result of `InternalMemCompareMem`. -/
theorem compareMemLoopFuel_eq (N : Nat) (mem : Mem) :
    ∀ (fuel L D S : Nat), 1 ≤ L → L < 2 ^ N → L ≤ fuel →
      InternalMemCompareMem.loopFuel N mem fuel D S L =
        some (InternalMemCompareMem N mem D S L) := by
  intro fuel
  induction fuel with
  | zero => intro L D S h1 _ h2; omega
  | succ fuel ih =>
    intro L D S h1 hL hFuel
    obtain ⟨L, rfl⟩ : ∃ K, L = K + 1 := ⟨L - 1, by omega⟩
    rw [compareMem_succ N mem D S L (by omega), InternalMemCompareMem.loopFuel]
    simp only [decUINTN_succ N L (by omega), readINT8_eq_iff]
    by_cases hc : L ≠ 0 ∧ readUINT8 N mem D = readUINT8 N mem S
    · simp only [hc, ne_eq, not_false_eq_true, and_self, if_true]
      exact ih L _ _ (by omega) (by omega) (by omega)
    · simp only [hc, if_false]

/-- Entered with a count `1 <= L < 2 ^ N`, the scan loop is left within `L`
turns, with the result of `InternalMemScanMemW.loop`. -/
theorem scanMemLoopFuel_eq (N W : Nat) (mem : Mem) (Value : Nat) :
    ∀ (fuel L P : Nat), 1 ≤ L → L < 2 ^ N → L ≤ fuel →
      InternalMemScanMemW.loopFuel N W mem Value fuel P L =
        some (InternalMemScanMemW.loop N W mem Value P L) := by
  intro fuel
  induction fuel with
  | zero => intro L P h1 _ h2; omega
  | succ fuel ih =>
    intro L P h1 hL hFuel
    obtain ⟨L, rfl⟩ : ∃ K, L = K + 1 := ⟨L - 1, by omega⟩
    rw [scanMemLoop_succ N W mem Value P L (by omega), InternalMemScanMemW.loopFuel]
    simp only [decUINTN_succ N L (by omega)]
    by_cases hV : loadLE N mem (W / 8) P = Value
    · simp only [hV, if_true]
    · by_cases hL0 : L = 0
      · simp only [hV, if_false, hL0, ne_eq, not_true_eq_false]
      · simp only [hV, if_false, ne_eq, hL0, not_false_eq_true, if_true]
        exact ih L _ (by omega) (by omega) (by omega)

/-- The loop of `InternalMemIsZeroBuffer` entered at `Index` is left within
`Length - Index + 1` evaluations of its condition. -/
theorem isZeroBufferLoopFuel_eq (N : Nat) (mem : Mem) (Buffer Length : Nat) :
    ∀ (fuel Index : Nat), Length - Index < fuel →
      InternalMemIsZeroBuffer.loopFuel N mem Buffer Length fuel Index =
        some (InternalMemIsZeroBuffer.loop N mem Buffer Length Index) := by
  intro fuel
  induction fuel with
  | zero => intro Index h; omega
  | succ fuel ih =>
    intro Index hFuel
    rw [InternalMemIsZeroBuffer.loop, InternalMemIsZeroBuffer.loopFuel]
    by_cases hlt : Index < Length
    · by_cases hb : readUINT8 N mem (Buffer + Index) = 0
      · simp only [hlt, if_true, ne_eq, hb, not_true_eq_false, if_false]
        exact ih (Index + 1) (by omega)
      · simp only [hlt, if_true, ne_eq, hb, not_false_eq_true]
    · simp only [hlt, if_false]

/-- C14: every primitive runs to completion.  For a count `1 <= Length < 2 ^ N`
the loops of `InternalMemSetMemW`, `InternalMemCompareMem` and
`InternalMemScanMemW` are left within `Length` turns, with the results of the
total functions of this file, and the fill loop leaves the count at `0`; the
loop of `InternalMemIsZeroBuffer` is left within `Length0 + 1` evaluations of
its condition for every `Length0 >= 0`. -/
theorem loops_run_to_completion (N W : Nat) (mem : Mem) (Buffer A B Length Value fuel : Nat)
    (hLength : 1 ≤ Length) (hUINTN : Length < 2 ^ N) (hFuel : Length ≤ fuel) :
    InternalMemSetMemW.loopFuel N W Buffer Value fuel mem Length =
        some (InternalMemSetMemW.loop N W Buffer Value mem Length) ∧
      (InternalMemSetMemW.loop N W Buffer Value mem Length).2 = 0 ∧
      InternalMemCompareMem.loopFuel N mem fuel A B Length =
        some (InternalMemCompareMem N mem A B Length) ∧
      InternalMemScanMemW.loopFuel N W mem Value fuel Buffer Length =
        some (InternalMemScanMemW N W mem Buffer Length Value) ∧
      ∀ Length0, InternalMemIsZeroBuffer.loopFuel N mem Buffer Length0 (Length0 + 1) 0 =
        some (InternalMemIsZeroBuffer N mem Buffer Length0) :=
  ⟨setMemLoopFuel_eq N W Buffer Value fuel Length mem hLength hUINTN hFuel,
    setMemLoop_count N W Buffer Value Length mem hLength hUINTN,
    compareMemLoopFuel_eq N mem fuel Length A B hLength hUINTN hFuel,
    scanMemLoopFuel_eq N W mem Value fuel Length Buffer hLength hUINTN hFuel,
    fun Length0 => isZeroBufferLoopFuel_eq N mem Buffer Length0 (Length0 + 1) 0 (by omega)⟩

/-- C14, witness: with `Length = 3` each loop is left within 3 turns; shown
for the fill loop of `InternalMemSetMem16` at `0x1000`. -/
theorem loops_run_to_completion_witness :
    1 ≤ 3 ∧ 3 < 2 ^ 32 ∧ 3 ≤ 3 ∧
      InternalMemSetMemW.loopFuel 32 16 0x1000 0xBEEF 3 (fun _ => 0) 3 =
        some (InternalMemSetMemW.loop 32 16 0x1000 0xBEEF (fun _ => 0) 3) :=
  ⟨by decide, by decide, by decide,
    (loops_run_to_completion 32 16 (fun _ => 0) 0x1000 0x1000 0x1000 3 0xBEEF 3
      (by decide) (by decide) (by decide)).1⟩

/-! ## A count of zero -/

/-- The last store of the fill loop is the one to the element of index `0`. -/
theorem setMemLoop_last (N W Buffer Value : Nat) :
    ∀ (L : Nat) (mem : Mem), L < 2 ^ N →
      ∃ m, (InternalMemSetMemW.loop N W Buffer Value mem (L + 1)).1 =
        writeElem N W m Buffer 0 Value := by
  intro L
  induction L with
  | zero =>
    intro mem h
    refine ⟨mem, ?_⟩
    rw [setMemLoop_succ N W Buffer Value mem 0 h]
    simp only [ne_eq, not_true_eq_false, if_false]
  | succ L ih =>
    intro mem h
    rw [setMemLoop_succ N W Buffer Value mem (L + 1) h]
    simp only [ne_eq, Nat.succ_ne_zero, not_false_eq_true, if_true]
    exact ih _ (by omega)

/-- C16: for a width `W` of 16, 32 or 64 bits, a buffer of `Length >= 1`
elements lying inside the address space and a `W`-bit value `v`, on the memory
left by `InternalMemSetMemW (Buffer, Length, v)` the call
`InternalMemScanMemW (Buffer, Length, v)` returns `Buffer`, the address of
index `0`, and `InternalMemScanMemW (Buffer, Length, w)` returns `NULL` for
every `w` other than `v`. -/
theorem InternalMemScanMemW_after_fill (N W : Nat) (mem : Mem) (Buffer Length v w : Nat)
    (hW : W = 16 ∨ W = 32 ∨ W = 64) (hLength : 1 ≤ Length)
    (hRange : Buffer + Length * (W / 8) ≤ 2 ^ N) (hv : v < 2 ^ W) :
    InternalMemScanMemW N W (InternalMemSetMemW N W mem Buffer Length v).1 Buffer Length v =
        Buffer ∧
      (w ≠ v →
        InternalMemScanMemW N W (InternalMemSetMemW N W mem Buffer Length v).1 Buffer Length w =
          NULL) := by
  have hw := elemBytes_pos W hW
  rw [← elemBytes_pow W hW] at hv
  have hRead := setMemLoop_read N W Buffer v hw hv Length mem hLength hRange
  constructor
  · have h := scanMemLoop_found N W (InternalMemSetMemW N W mem Buffer Length v).1 v hw
      Length Buffer 0 hRange (by omega) (fun i hi => absurd hi (Nat.not_lt_zero i))
      (hRead 0 (by omega))
    simpa only [Nat.zero_mul, Nat.add_zero] using h
  · intro hne
    apply scanMemLoop_not_found N W _ w hw Length Buffer hLength hRange
    intro i hi
    have h : readElem N W (InternalMemSetMemW N W mem Buffer Length v).1 Buffer i = v :=
      hRead i hi
    rw [h]
    exact fun h' => hne h'.symm

/-- C16, witness: after `InternalMemSetMem16` of `0xBEEF` on 3 elements at
`0x1000`, `InternalMemScanMem16` over the 3 elements returns `0x1000` for
`0xBEEF` and `NULL` for `0xBEEE`. -/
theorem InternalMemScanMemW_after_fill_witness :
    InternalMemScanMem16 32 (InternalMemSetMem16 32 (fun _ => 0) 0x1000 3 0xBEEF).1
        0x1000 3 0xBEEF = 0x1000 ∧
      InternalMemScanMem16 32 (InternalMemSetMem16 32 (fun _ => 0) 0x1000 3 0xBEEF).1
        0x1000 3 0xBEEE = NULL :=
  have h := InternalMemScanMemW_after_fill 32 16 (fun _ => 0) 0x1000 3 0xBEEF 0xBEEE
    (by decide) (by decide) (by decide) (by decide)
  ⟨h.1, h.2 (by decide)⟩

/-! ## Fill, then the all-zero test -/

/-- A store of the value `0` leaves a byte at `0` or as it was. -/
theorem storeLE_zero_cases (N : Nat) (a : Nat) :
    ∀ (n : Nat) (mem : Mem) (A : Nat),
      storeLE N n mem A 0 a = 0 ∨ storeLE N n mem A 0 a = mem a := by
  intro n
  induction n with
  | zero => intro mem A; exact Or.inr rfl
  | succ n ih =>
    intro mem A
    rw [storeLE, Nat.zero_div]
    rcases ih (writeUINT8 N mem A 0) (A + 1) with h | h
    · exact Or.inl h
    · rw [h]
      by_cases ha : a = A % 2 ^ N
      · left
        rw [ha, writeUINT8_same]
      · right
        exact writeUINT8_other N mem A 0 a ha

/-- The fill loop with the value `0` leaves a byte at `0` or as it was. -/
theorem setMemLoop_zero_cases (N W Buffer a : Nat) :
    ∀ (L : Nat) (mem : Mem), L < 2 ^ N →
      (InternalMemSetMemW.loop N W Buffer 0 mem (L + 1)).1 a = 0 ∨
        (InternalMemSetMemW.loop N W Buffer 0 mem (L + 1)).1 a = mem a := by
  intro L
  induction L with
  | zero =>
    intro mem h
    rw [setMemLoop_succ N W Buffer 0 mem 0 h]
    simp only [ne_eq, not_true_eq_false, if_false]
    exact storeLE_zero_cases N a _ mem _
  | succ L ih =>
    intro mem h
    rw [setMemLoop_succ N W Buffer 0 mem (L + 1) h]
    simp only [ne_eq, Nat.succ_ne_zero, not_false_eq_true, if_true]
    rcases ih (writeElem N W mem Buffer (L + 1) 0) (by omega) with h1 | h1
    · exact Or.inl h1
    · rw [h1]
      exact storeLE_zero_cases N a _ mem _

/-- After the fill loop with the value `0`, every byte of every element of
index `i < L` is `0`, also when the buffer wraps around the address space. -/
theorem setMemLoop_zero_byte (N W Buffer : Nat) (hw : W / 8 ≤ 2 ^ N) :
    ∀ (L : Nat) (mem : Mem), 1 ≤ L → L < 2 ^ N → ∀ i j, i < L → j < W / 8 →
      (InternalMemSetMemW.loop N W Buffer 0 mem L).1 ((Buffer + i * (W / 8) + j) % 2 ^ N) = 0 := by
  intro L
  induction L with
  | zero => intro mem h; omega
  | succ L ih =>
    intro mem _ hL i j hi hj
    have hst : ∀ m : Mem, writeElem N W m Buffer L 0 ((Buffer + L * (W / 8) + j) % 2 ^ N) = 0 := by
      intro m
      have := storeLE_hit N (W / 8) m (Buffer + L * (W / 8)) 0 j hw hj
      rwa [Nat.zero_div, Nat.zero_mod] at this
    rw [setMemLoop_succ N W Buffer 0 mem L (by omega)]
    by_cases hL0 : L = 0
    · simp only [hL0, ne_eq, not_true_eq_false, if_false]
      have hi0 : i = 0 := by omega
      subst hi0
      subst hL0
      exact hst mem
    · simp only [ne_eq, hL0, not_false_eq_true, if_true]
      by_cases hiL : i < L
      · exact ih _ (by omega) (by omega) i j hiL hj
      · have hiE : i = L := by omega
        subst hiE
        obtain ⟨K, rfl⟩ : ∃ K, i = K + 1 := ⟨i - 1, by omega⟩
        rcases setMemLoop_zero_cases N W Buffer ((Buffer + (K + 1) * (W / 8) + j) % 2 ^ N) K
          (writeElem N W mem Buffer (K + 1) 0) (by omega) with h1 | h1
        · exact h1
        · rw [h1]
          exact hst mem

/-- A nonzero number of `n` bytes has a nonzero byte. -/
theorem exists_byte_ne_zero :
    ∀ (n V : Nat), V ≠ 0 → V < 256 ^ n → ∃ j, j < n ∧ V / 256 ^ j % 256 ≠ 0 := by
  intro n
  induction n with
  | zero =>
    intro V h0 h
    simp only [pow_zero, Nat.lt_one_iff] at h
    exact absurd h h0
  | succ n ih =>
    intro V h0 h
    by_cases hb : V % 256 = 0
    · have h1 : V / 256 < 256 ^ n := by
        rw [Nat.div_lt_iff_lt_mul (by decide)]
        rw [pow_succ] at h
        exact h
      obtain ⟨j, hj, hne⟩ := ih (V / 256) (by omega) h1
      refine ⟨j + 1, by omega, ?_⟩
      rwa [Nat.div_div_eq_div_mul, ← pow_succ'] at hne
    · exact ⟨0, Nat.succ_pos n, by simpa using hb⟩

/-- C17: for a width `W` of 16, 32 or 64 bits, any buffer, any `Length >= 1`
with `Length * (W / 8)` representable in a `UINTN` and any `W`-bit `Value`, on
the memory left by `InternalMemSetMemW (Buffer, Length, Value)` the call
`InternalMemIsZeroBuffer (Buffer, Length * (W / 8))` returns `TRUE` if and only
if `Value` is `0`. -/
theorem InternalMemIsZeroBuffer_after_fill (N W : Nat) (mem : Mem) (Buffer Length Value : Nat)
    (hW : W = 16 ∨ W = 32 ∨ W = 64) (hLength : 1 ≤ Length)
    (hBytes : Length * (W / 8) < 2 ^ N) (hValue : Value < 2 ^ W) :
    InternalMemIsZeroBuffer N (InternalMemSetMemW N W mem Buffer Length Value).1 Buffer
        (Length * (W / 8)) = true ↔ Value = 0 := by
  have hw := elemBytes_pos W hW
  rw [← elemBytes_pow W hW] at hValue
  have hwL : W / 8 ≤ Length * (W / 8) := Nat.le_mul_of_pos_left _ hLength
  have hLw : Length ≤ Length * (W / 8) := Nat.le_mul_of_pos_right _ hw
  rw [InternalMemIsZeroBuffer, isZeroBufferLoop_iff N _ Buffer _ _ 0 rfl]
  constructor
  · intro hAll
    by_contra hne
    obtain ⟨j, hj, hbyte⟩ := exists_byte_ne_zero (W / 8) Value hne hValue
    obtain ⟨K, rfl⟩ : ∃ K, Length = K + 1 := ⟨Length - 1, by omega⟩
    obtain ⟨m, hm⟩ := setMemLoop_last N W Buffer Value K mem (by omega)
    have h := hAll j (Nat.zero_le j) (by omega)
    have hst := storeLE_hit N (W / 8) m (Buffer + 0 * (W / 8)) Value j (by omega) hj
    simp only [Nat.zero_mul, Nat.add_zero] at hst
    simp only [readUINT8, InternalMemSetMemW, hm, writeElem, Nat.zero_mul, Nat.add_zero, hst,
      Nat.mod_mod] at h
    exact hbyte h
  · intro h0 t _ ht
    subst h0
    have hi : t / (W / 8) < Length := by
      rw [Nat.div_lt_iff_lt_mul (by omega)]
      exact ht
    have hj : t % (W / 8) < W / 8 := Nat.mod_lt _ (by omega)
    have ht_eq : Buffer + t = Buffer + t / (W / 8) * (W / 8) + t % (W / 8) := by
      have := Nat.div_add_mod t (W / 8)
      rw [Nat.mul_comm] at this
      omega
    have h := setMemLoop_zero_byte N W Buffer (by omega) Length mem hLength (by omega)
      (t / (W / 8)) (t % (W / 8)) hi hj
    rw [← ht_eq] at h
    simp only [readUINT8, InternalMemSetMemW, h, Nat.zero_mod]

/-- C17, witness: after `InternalMemSetMem32` on 2 elements at `0x1000`,
`InternalMemIsZeroBuffer` over the 8 bytes returns `TRUE` for the value `0` and
does not for the value `0x01000000`. -/
theorem InternalMemIsZeroBuffer_after_fill_witness :
    InternalMemIsZeroBuffer 32 (InternalMemSetMem32 32 (fun _ => 0x5A) 0x1000 2 0).1 0x1000
        (2 * (32 / 8)) = true ∧
      InternalMemIsZeroBuffer 32 (InternalMemSetMem32 32 (fun _ => 0x5A) 0x1000 2 0x01000000).1
        0x1000 (2 * (32 / 8)) ≠ true :=
  ⟨(InternalMemIsZeroBuffer_after_fill 32 32 (fun _ => 0x5A) 0x1000 2 0
      (by decide) (by decide) (by decide) (by decide)).mpr rfl,
    fun h => absurd
      ((InternalMemIsZeroBuffer_after_fill 32 32 (fun _ => 0x5A) 0x1000 2 0x01000000
        (by decide) (by decide) (by decide) (by decide)).mp h)
      (by decide)⟩

/-! ## Compare primitive: the range of the result -/

/-- The result of the compare loop is a difference of two bytes. -/
theorem compareMem_bounds (N : Nat) (mem : Mem) (D S Length : Nat) :
    -255 ≤ InternalMemCompareMem N mem D S Length ∧
      InternalMemCompareMem N mem D S Length ≤ 255 := by
  induction D, S, Length using InternalMemCompareMem.induct N mem with
  | case1 D S Length Length1 hc ih =>
    rw [InternalMemCompareMem]
    simp only [hc, ne_eq, not_false_eq_true, and_self, if_true]
    exact ih
  | case2 D S Length Length1 hc =>
    rw [InternalMemCompareMem]
    simp only [hc, if_false]
    have h1 := readUINT8_lt N mem D
    have h2 := readUINT8_lt N mem S
    omega

/-- The compare loop stops at the same index whether its test reads the bytes
as `INT8` or as `UINT8`. -/
theorem compareMem_stopIndex_eq (N : Nat) (mem : Mem) (D S Length : Nat) :
    InternalMemCompareMem.stopIndex N mem D S Length =
      InternalMemCompareMem.stopIndexUnsigned N mem D S Length := by
  induction D, S, Length using InternalMemCompareMem.induct N mem with
  | case1 D S Length Length1 hc ih =>
    have hu : Length1 ≠ 0 ∧ readUINT8 N mem D = readUINT8 N mem S :=
      ⟨hc.1, (readINT8_eq_iff N mem D S).mp hc.2⟩
    rw [InternalMemCompareMem.stopIndex, InternalMemCompareMem.stopIndexUnsigned]
    simp only [hc, hu, ne_eq, not_false_eq_true, and_self, if_true]
    rw [ih]
  | case2 D S Length Length1 hc =>
    have hu : ¬ (Length1 ≠ 0 ∧ readUINT8 N mem D = readUINT8 N mem S) :=
      fun h => hc ⟨h.1, (readINT8_eq_iff N mem D S).mpr h.2⟩
    rw [InternalMemCompareMem.stopIndex, InternalMemCompareMem.stopIndexUnsigned]
    simp only [hc, hu, if_false]

/-- The compare loop returns the difference of the two unsigned bytes at the
index where it stops. -/
theorem compareMem_eq_at_stopIndex (N : Nat) (mem : Mem) (D S Length : Nat) :
    InternalMemCompareMem N mem D S Length =
      (readUINT8 N mem (D + InternalMemCompareMem.stopIndex N mem D S Length) : Int) -
        (readUINT8 N mem (S + InternalMemCompareMem.stopIndex N mem D S Length) : Int) := by
  induction D, S, Length using InternalMemCompareMem.induct N mem with
  | case1 D S Length Length1 hc ih =>
    rw [InternalMemCompareMem, InternalMemCompareMem.stopIndex]
    simp only [hc, ne_eq, not_false_eq_true, and_self, if_true]
    rw [ih, readUINT8_ptrAdd, readUINT8_ptrAdd]
  | case2 D S Length Length1 hc =>
    rw [InternalMemCompareMem, InternalMemCompareMem.stopIndex]
    simp only [hc, if_false, Nat.add_zero]

/-- A number between `-255` and `255` is stored in an `INTN` of 9 bits or more
without change. -/
theorem wrapINTN_eq (N : Nat) (x : Int) (hN : 9 ≤ N) (h1 : -255 ≤ x) (h2 : x ≤ 255) :
    wrapINTN N x = x := by
  obtain ⟨K, rfl⟩ : ∃ K, N = K + 9 := ⟨N - 9, by omega⟩
  have hK : (1 : Int) ≤ 2 ^ K := by
    have : 0 < 2 ^ K := Nat.two_pow_pos K
    exact_mod_cast this
  have hhalf : (2 : Int) ^ (K + 9 - 1) = 256 * 2 ^ K := by
    rw [show K + 9 - 1 = K + 8 by omega, pow_add]
    ring
  have hfull : (2 : Int) ^ (K + 9) = 512 * 2 ^ K := by
    rw [pow_add]
    ring
  rw [wrapINTN, hhalf, hfull, Int.emod_eq_of_lt (by omega) (by omega)]
  omega

/-- C18: for any two buffers and any `Length`, the result of
`InternalMemCompareMem (A, B, Length)` lies between `-255` and `255`, so that it
is stored in an `INTN` of `N >= 9` bits without overflow or wrapping; the loop
stops at the same index whether its equality test reads the bytes as `INT8`, as
the code does, or as `UINT8`, and the result is the difference of the two
`UINT8` bytes at that index. -/
theorem InternalMemCompareMem_range (N : Nat) (mem : Mem) (A B Length : Nat) (hN : 9 ≤ N) :
    (-255 ≤ InternalMemCompareMem N mem A B Length ∧
        InternalMemCompareMem N mem A B Length ≤ 255) ∧
      wrapINTN N (InternalMemCompareMem N mem A B Length) =
        InternalMemCompareMem N mem A B Length ∧
      InternalMemCompareMem.stopIndex N mem A B Length =
        InternalMemCompareMem.stopIndexUnsigned N mem A B Length ∧
      InternalMemCompareMem N mem A B Length =
        (readUINT8 N mem (A + InternalMemCompareMem.stopIndex N mem A B Length) : Int) -
          (readUINT8 N mem (B + InternalMemCompareMem.stopIndex N mem A B Length) : Int) :=
  ⟨compareMem_bounds N mem A B Length,
    wrapINTN_eq N _ hN (compareMem_bounds N mem A B Length).1
      (compareMem_bounds N mem A B Length).2,
    compareMem_stopIndex_eq N mem A B Length,
    compareMem_eq_at_stopIndex N mem A B Length⟩

/-- C18, witness: with a `UINTN` of 32 bits, on the bytes `{0, 0x80}` and
`{0xFF, 0x7F}`, whose signed readings are `{0, -128}` and `{-1, 127}`, the
result of `InternalMemCompareMem` with `Length = 2` lies between `-255` and
`255`. -/
theorem InternalMemCompareMem_range_witness :
    9 ≤ 32 ∧
      -255 ≤ InternalMemCompareMem 32 (memOfBytes 0x1000 [0, 0x80, 0xFF, 0x7F]) 0x1000 0x1002 2 ∧
      InternalMemCompareMem 32 (memOfBytes 0x1000 [0, 0x80, 0xFF, 0x7F]) 0x1000 0x1002 2 ≤ 255 :=
  ⟨by decide,
    (InternalMemCompareMem_range 32 (memOfBytes 0x1000 [0, 0x80, 0xFF, 0x7F]) 0x1000 0x1002 2
      (by decide)).1⟩

end MemLibGeneric
